import Mathlib

/-!
Verification development for the Tech-Pack-Processing tariff ingestion and
retrieval engine.  JavaScript sources are shallowly embedded: strings are
`List Char`, JS numbers are `ℚ` (the arithmetic the code performs is exact on
the values involved), fallible code returns `Option`/`Except`, and database /
network effects are modelled by explicit state passing plus oracles that choose
the outcome of each external call.
-/

/-- JS whitespace class `\s` restricted to the ASCII characters that can occur
in the embedded texts. -/
def jsWs (c : Char) : Bool :=
  c == ' ' || c == '\t' || c == '\n' || c == '\r' || c == '\x0b' || c == '\x0c'

theorem isDigit_not_jsWs {c : Char} (h : c.isDigit) : jsWs c = false := by
  unfold jsWs
  rcases Decidable.em (c = ' ') with h1 | h1 <;> rcases Decidable.em (c = '\t') with h2 | h2 <;>
    first
      | (subst h1; simp [Char.isDigit] at h)
      | (subst h2; simp [Char.isDigit] at h)
      | skip
  rcases Decidable.em (c = '\n') with h3 | h3
  · subst h3; simp [Char.isDigit] at h
  rcases Decidable.em (c = '\r') with h4 | h4
  · subst h4; simp [Char.isDigit] at h
  rcases Decidable.em (c = '\x0b') with h5 | h5
  · subst h5; simp [Char.isDigit] at h
  rcases Decidable.em (c = '\x0c') with h6 | h6
  · subst h6; simp [Char.isDigit] at h
  simp [h1, h2, h3, h4, h5, h6]

/-- `String.prototype.trim`: strip leading and trailing whitespace. -/
def trimJS (l : List Char) : List Char :=
  ((l.dropWhile jsWs).reverse.dropWhile jsWs).reverse

theorem trimJS_length_le (l : List Char) : (trimJS l).length ≤ l.length := by
  unfold trimJS
  calc ((l.dropWhile jsWs).reverse.dropWhile jsWs).reverse.length
      = ((l.dropWhile jsWs).reverse.dropWhile jsWs).length := List.length_reverse _
    _ ≤ (l.dropWhile jsWs).reverse.length :=
        (List.dropWhile_suffix jsWs).sublist.length_le
    _ = (l.dropWhile jsWs).length := List.length_reverse _
    _ ≤ l.length := (List.dropWhile_suffix jsWs).sublist.length_le

mutual

/-- `String.prototype.split(/\s+/)`, scanning inside a token whose characters
seen so far are `acc` (reversed). -/
def splitWsGo : List Char → List Char → List (List Char)
  | [], acc => [acc.reverse]
  | c :: cs, acc =>
    if jsWs c then acc.reverse :: splitWsSkip cs else splitWsGo cs (c :: acc)

/-- `String.prototype.split(/\s+/)`, scanning inside a whitespace run. -/
def splitWsSkip : List Char → List (List Char)
  | [] => [[]]
  | c :: cs => if jsWs c then splitWsSkip cs else splitWsGo cs [c]

end

/-- `line.split(/\s+/)` as in `parseTariffRow`. -/
def splitWs (l : List Char) : List (List Char) := splitWsGo l []

def str2l (s : String) : List Char := s.data

/-- `String.prototype.includes(needle)`. -/
def hasSeg (n : List Char) : List Char → Bool
  | [] => n.isEmpty
  | c :: cs => n.isPrefixOf (c :: cs) || hasSeg n cs

/-- `String.prototype.indexOf(needle)` (first match position). -/
def idxOfAux (n : List Char) : List Char → Nat → Option Nat
  | [], i => if n.isEmpty then some i else none
  | c :: cs, i => if n.isPrefixOf (c :: cs) then some i else idxOfAux n cs (i + 1)

/-- Does the regex `/\s+\d+\s/` match starting exactly at the head of `l`?
Backtracking analysis: since no character is both whitespace and a digit, the
regex matches at this position iff the position starts a whitespace run that is
directly followed by a nonempty digit run that is directly followed by one more
whitespace character. -/
def numScanAt (l : List Char) : Bool :=
  match l with
  | [] => false
  | c :: cs =>
    jsWs c &&
      (let afterWs := cs.dropWhile jsWs
       let ds := afterWs.takeWhile Char.isDigit
       !ds.isEmpty &&
         match afterWs.drop ds.length with
         | [] => false
         | d :: _ => jsWs d)

def searchNumAux : List Char → Nat → Option Nat
  | [], _ => none
  | c :: cs, i => if numScanAt (c :: cs) then some i else searchNumAux cs (i + 1)

/-- `line.search(/\s+\d+\s/)`; `none` is JS `-1`. -/
def jsSearchNum (l : List Char) : Option Nat := searchNumAux l 0

/-- `String.prototype.substring(a, b)`: clamps both indices to the string
length and swaps them when `a > b`. -/
def jsSubstring (l : List Char) (a b : Nat) : List Char :=
  let a' := min a l.length
  let b' := min b l.length
  ((l.drop (min a' b')).take (max a' b' - min a' b'))

/-- Numeric value of a digit string. -/
def digitVal (l : List Char) : Nat :=
  l.foldl (fun a c => a * 10 + (c.toNat - '0'.toNat)) 0

/-- `parseFloat` on the decimal strings this code can meet: optional leading
whitespace, optional sign, integer digits, optional fraction, optional
exponent.  `none` is JS `NaN` (no leading number could be parsed); the
non-finite spellings (`Infinity`) are outside the values this pipeline
produces and are also parsed to `none`. -/
def jsParseFloat (l : List Char) : Option ℚ :=
  let l₁ := l.dropWhile jsWs
  let sgn : Int := if l₁.headD ' ' = '-' then -1 else 1
  let l₂ := if l₁.headD ' ' = '-' ∨ l₁.headD ' ' = '+' then l₁.tail else l₁
  let intPart := l₂.takeWhile Char.isDigit
  let l₃ := l₂.drop intPart.length
  let fracPart := if l₃.headD ' ' = '.' then l₃.tail.takeWhile Char.isDigit else []
  let l₄ := if l₃.headD ' ' = '.' then l₃.tail.drop fracPart.length else l₃
  if intPart.isEmpty && fracPart.isEmpty then none
  else
    -- the parsed value sign·(int.frac)·10^exp, built as one exact fraction
    let mantNum : Int := sgn * (digitVal intPart * 10 ^ fracPart.length + digitVal fracPart)
    let expVal : Int :=
      if l₄.headD ' ' = 'e' ∨ l₄.headD ' ' = 'E' then jsExpPart l₄.tail else 0
    if 0 ≤ expVal then
      some (mkRat (mantNum * 10 ^ expVal.toNat) (10 ^ fracPart.length))
    else some (mkRat mantNum (10 ^ fracPart.length * 10 ^ (-expVal).toNat))
where
  /-- exponent part after `e`/`E`: optional sign then digits; an `e` not
  followed by digits contributes exponent 0 (JS stops parsing before it). -/
  jsExpPart (r : List Char) : Int :=
    let r' := if r.headD ' ' = '-' ∨ r.headD ' ' = '+' then r.tail else r
    let ds := r'.takeWhile Char.isDigit
    if ds.isEmpty then 0
    else if r.headD ' ' = '-' then -(digitVal ds : Int) else (digitVal ds : Int)

/-- JS `x || 0` on a possibly-NaN number: `NaN` and `0` both give `0`. -/
def jsOr0 (x : Option ℚ) : ℚ := x.getD 0

/-- A parsed tariff table row (`parseTariffRow`'s return object). -/
structure TariffRow where
  hsCode : List Char
  description : List Char
  cd : ℚ
  sd : ℚ
  vat : ℚ
  ait : ℚ
  rd : ℚ
  at' : ℚ
  tti : ℚ
deriving DecidableEq, Repr

/-- `validateRate` from `parseTariffRow`: coerce `undefined`/`NaN` to `0` and
clamp into `[0, 99999.999]` (`DECIMAL(8,3)` bound). -/
def validateRate (rate : Option ℚ) : ℚ :=
  let num := jsOr0 rate
  min (max num 0) (mkRat 99999999 1000)

/-- `/^\d{8}$/.test(s)`. -/
def isHs8 (s : List Char) : Bool := s.length == 8 && s.all Char.isDigit

/-- `PDFProcessor.parseTariffRow` (src/server/src/services/pdfProcessor.js,
lines 171–228), faithful translation; `none` is the JS `null`. -/
def parseTariffRow (line : List Char) : Option TariffRow :=
  let parts := splitWs line
  if parts.length < 3 then none
  else
    let hsCode := parts.headD []
    if !isHs8 hsCode then none
    else
      let descriptionStart := (idxOfAux hsCode line 0).getD 0 + hsCode.length + 1
      match jsSearchNum line with
      | none => none
      | some firstNumberIndex =>
        let description := trimJS (jsSubstring line descriptionStart firstNumberIndex)
        let rateParts := parts.drop (parts.length - 7)
        let rates := rateParts.map (fun r => jsOr0 (jsParseFloat r))
        if !rates.any (fun r => decide (0 ≤ r)) then none
        else
          some
            { hsCode := hsCode
              description := description
              cd := validateRate (rates.get? 0)
              sd := validateRate (rates.get? 1)
              vat := validateRate (rates.get? 2)
              ait := validateRate (rates.get? 3)
              rd := validateRate (rates.get? 4)
              at' := validateRate (rates.get? 5)
              tti := validateRate (rates.get? 6) }

/-- The header-line signature scanned for by `parseTariffTable` (matching is
performed on the upper-cased line). -/
def headerMatch (l : List Char) : Bool :=
  let u := l.map Char.toUpper
  ((hasSeg (str2l "HSCODE") u || hasSeg (str2l "HS CODE") u) &&
      (hasSeg (str2l "DESCRIPTION") u || hasSeg (str2l "TARIFF") u) &&
      (hasSeg (str2l "CD") u || hasSeg (str2l "DUTY") u)) ||
    (hasSeg (str2l "HSCODE") u && hasSeg (str2l "TARIFF_DESCRIPTION") u &&
      hasSeg (str2l "CD") u) ||
    (hasSeg (str2l "HSCODE") u && hasSeg (str2l "DESCRIPTION") u &&
      hasSeg (str2l "CDSD") u)

/-- One step of `parseTariffTable`'s row loop: state is
(rows so far, totalRows, failedRows). -/
def tariffRowStep (st : List TariffRow × Nat × Nat) (l : List Char) :
    List TariffRow × Nat × Nat :=
  let line := trimJS l
  if line.length < 10 then st
  else
    match parseTariffRow line with
    | some row => (st.1 ++ [row], st.2.1 + 1, st.2.2)
    | none => (st.1, st.2.1 + 1, st.2.2 + 1)

/-- `PDFProcessor.parseTariffTable` (pdfProcessor.js, lines 87–169).  The two
`throw`s become `Except.error`.  The failure-rate gate compares
`failedRows / totalRows > 0.3` in exact arithmetic; when `totalRows = 0` the
JS quotient is `NaN` and the comparison is false, matching `ℚ`'s
division-by-zero convention `0 / 0 = 0`. -/
def parseTariffTable (text : List Char) : Except String (List TariffRow) :=
  let lines := text.splitOn '\n'
  match lines.findIdx? headerMatch with
  | none => .error "Could not find tariff table header"
  | some hIdx =>
    let body := lines.drop (hIdx + 1)
    let res := body.foldl tariffRowStep ([], 0, 0)
    -- failureRate = failedRows / totalRows as an exact rational
    -- (`mkRat f t = (f : ℚ) / t`, with `t = 0` giving `0`, matching JS's
    -- `NaN > 0.3 = false`)
    if mkRat res.2.2 res.2.1 > mkRat 3 10 then
      .error "PDF structure may have changed"
    else .ok res.1

/-- Candidate rows of the table body: trimmed lines of length ≥ 10 after the
header line. -/
def rowCandidates (text : List Char) (hIdx : Nat) : List (List Char) :=
  (((text.splitOn '\n').drop (hIdx + 1)).map trimJS).filter (fun l => 10 ≤ l.length)

def totalRowsOf (text : List Char) (hIdx : Nat) : Nat := (rowCandidates text hIdx).length

def failedRowsOf (text : List Char) (hIdx : Nat) : Nat :=
  ((rowCandidates text hIdx).filter (fun l => (parseTariffRow l).isNone)).length


theorem validateRate_nonneg (x : Option ℚ) : 0 ≤ validateRate x := by
  unfold validateRate
  exact le_min (le_max_right _ _) (by norm_num)

theorem mkRat_bound_eq : (mkRat 99999999 1000 : ℚ) = 99999999 / 1000 := by
  rw [Rat.mkRat_eq_div]; norm_num

theorem validateRate_le (x : Option ℚ) : validateRate x ≤ 99999999 / 1000 := by
  rw [← mkRat_bound_eq]
  exact min_le_right _ _

/-- C9: every `TariffRow` produced by `parseTariffRow` has an 8-digit
`hsCode` and all seven rate fields clamped into `[0, 99999.999]`. -/
theorem parseTariffRow_row_invariant (line : List Char) (row : TariffRow)
    (h : parseTariffRow line = some row) :
    (row.hsCode.length = 8 ∧ row.hsCode.all Char.isDigit = true) ∧
      (0 ≤ row.cd ∧ row.cd ≤ 99999999 / 1000) ∧
      (0 ≤ row.sd ∧ row.sd ≤ 99999999 / 1000) ∧
      (0 ≤ row.vat ∧ row.vat ≤ 99999999 / 1000) ∧
      (0 ≤ row.ait ∧ row.ait ≤ 99999999 / 1000) ∧
      (0 ≤ row.rd ∧ row.rd ≤ 99999999 / 1000) ∧
      (0 ≤ row.at' ∧ row.at' ≤ 99999999 / 1000) ∧
      (0 ≤ row.tti ∧ row.tti ≤ 99999999 / 1000) := by
  unfold parseTariffRow at h
  dsimp only [] at h
  split at h
  · exact absurd h (by simp)
  split at h
  · exact absurd h (by simp)
  split at h
  · exact absurd h (by simp)
  split at h
  · exact absurd h (by simp)
  rename_i hs8 _ _ _ _
  obtain ⟨rfl⟩ := Option.some.inj h
  unfold isHs8 at hs8
  simp only [Bool.not_eq_true, Bool.not_eq_false', Bool.and_eq_true, beq_iff_eq] at hs8
  exact ⟨⟨hs8.1, hs8.2⟩, ⟨validateRate_nonneg _, validateRate_le _⟩,
    ⟨validateRate_nonneg _, validateRate_le _⟩, ⟨validateRate_nonneg _, validateRate_le _⟩,
    ⟨validateRate_nonneg _, validateRate_le _⟩, ⟨validateRate_nonneg _, validateRate_le _⟩,
    ⟨validateRate_nonneg _, validateRate_le _⟩, ⟨validateRate_nonneg _, validateRate_le _⟩⟩

theorem foldl_tariffRowStep_counts (body : List (List Char))
    (acc : List TariffRow × Nat × Nat) :
    (body.foldl tariffRowStep acc).2.1 =
        acc.2.1 + ((body.map trimJS).filter (fun l => 10 ≤ l.length)).length ∧
      (body.foldl tariffRowStep acc).2.2 =
        acc.2.2 + (((body.map trimJS).filter (fun l => 10 ≤ l.length)).filter
          (fun l => (parseTariffRow l).isNone)).length := by
  induction body generalizing acc with
  | nil => simp
  | cons l body ih =>
    simp only [List.foldl_cons, List.map_cons]
    by_cases hlen : (trimJS l).length < 10
    · have h10 : ¬ 10 ≤ (trimJS l).length := by omega
      have hstep : tariffRowStep acc l = acc := by
        unfold tariffRowStep
        rw [if_pos hlen]
      rw [hstep]
      simpa [List.filter_cons, h10] using ih acc
    · have h10 : 10 ≤ (trimJS l).length := by omega
      cases hp : parseTariffRow (trimJS l) with
      | some row =>
        have hstep : tariffRowStep acc l = (acc.1 ++ [row], acc.2.1 + 1, acc.2.2) := by
          unfold tariffRowStep
          rw [if_neg hlen, hp]
        rw [hstep]
        obtain ⟨ih1, ih2⟩ := ih (acc.1 ++ [row], acc.2.1 + 1, acc.2.2)
        refine ⟨?_, ?_⟩
        · rw [ih1]
          simp [List.filter_cons, h10, hp]
          omega
        · rw [ih2]
          simp [List.filter_cons, h10, hp]
      | none =>
        have hstep : tariffRowStep acc l = (acc.1, acc.2.1 + 1, acc.2.2 + 1) := by
          unfold tariffRowStep
          rw [if_neg hlen, hp]
        rw [hstep]
        obtain ⟨ih1, ih2⟩ := ih (acc.1, acc.2.1 + 1, acc.2.2 + 1)
        refine ⟨?_, ?_⟩
        · rw [ih1]
          simp [List.filter_cons, h10, hp]
          omega
        · rw [ih2]
          simp [List.filter_cons, h10, hp]
          omega

/-- C1 (amended): when a header line is found, the heuristic parse is
abandoned with the structure-drift error exactly when
`failedRows / totalRows > 0.3` (exact arithmetic over ℚ; JS's `NaN > 0.3`
for `totalRows = 0` agrees with ℚ's `0 / 0 = 0`); at or below the threshold
the parse returns its rows. -/
theorem parseTariffTable_drift_iff (text : List Char) (hIdx : Nat)
    (h : (text.splitOn '\n').findIdx? headerMatch = some hIdx) :
    (parseTariffTable text = .error "PDF structure may have changed" ↔
        (3 : ℚ) / 10 < (failedRowsOf text hIdx : ℚ) / (totalRowsOf text hIdx : ℚ)) ∧
      (¬ (3 : ℚ) / 10 < (failedRowsOf text hIdx : ℚ) / (totalRowsOf text hIdx : ℚ) →
        ∃ rows, parseTariffTable text = .ok rows) := by
  unfold parseTariffTable
  dsimp only []
  rw [h]
  dsimp only []
  obtain ⟨h1, h2⟩ :=
    foldl_tariffRowStep_counts ((text.splitOn '\n').drop (hIdx + 1)) ([], 0, 0)
  simp only [Nat.zero_add] at h1 h2
  have htot : (((text.splitOn '\n').drop (hIdx + 1)).foldl tariffRowStep ([], 0, 0)).2.1 =
      totalRowsOf text hIdx := by
    rw [h1]; rfl
  have hfail : (((text.splitOn '\n').drop (hIdx + 1)).foldl tariffRowStep ([], 0, 0)).2.2 =
      failedRowsOf text hIdx := by
    rw [h2]; rfl
  rw [htot, hfail]
  have hbr : (mkRat (failedRowsOf text hIdx) (totalRowsOf text hIdx) > mkRat 3 10) ↔
      (3 : ℚ) / 10 < (failedRowsOf text hIdx : ℚ) / (totalRowsOf text hIdx : ℚ) := by
    rw [Rat.mkRat_eq_div, Rat.mkRat_eq_div]
    push_cast
    norm_num [gt_iff_lt]
  constructor
  · split
    · rename_i hgt
      exact ⟨fun _ => hbr.mp hgt, fun _ => rfl⟩
    · rename_i hle
      exact ⟨fun hok => absurd hok (by simp), fun hgt => absurd (hbr.mpr hgt) hle⟩
  · intro hle2
    split
    · rename_i hgt
      exact absurd (hbr.mp hgt) hle2
    · exact ⟨_, rfl⟩

def parseTariffTable_drift_text : List Char :=
  str2l "HSCODE DESCRIPTION CD\n01012100 Horses 5 0 0 5 0 0 10\nxxxxxxxxxxxx"

theorem parseTariffTable_drift_iff_witness :
    ((parseTariffTable_drift_text.splitOn '\n').findIdx? headerMatch = some 0) ∧
      parseTariffTable parseTariffTable_drift_text =
        .error "PDF structure may have changed" :=
  ⟨by decide,
    ((parseTariffTable_drift_iff parseTariffTable_drift_text 0 (by decide)).1).mpr
      (by
        have h1 : failedRowsOf parseTariffTable_drift_text 0 = 1 := by decide
        have h2 : totalRowsOf parseTariffTable_drift_text 0 = 2 := by decide
        rw [h1, h2]
        norm_num)⟩

/-! ## Ingestion pipeline model: `storeChunks`, `storeTariffRates`,
`processPDF`, `WebsiteMonitor.processDocument`.

External calls (supabase inserts/deletes, embedding requests, the download)
are resolved by an `IngestOracle`; the database is threaded explicitly; every
performed documents-table operation is recorded in an event trace.  The
vocabulary includes a `versionRecordWrite` event (an upsert into the
`document_versions` table) so that ordering properties about such a write can
be stated; the translated code never performs one — `processDocument`'s
`markDocumentAsProcessed` only logs. -/

/-- `documentInfo` as passed to `processPDF`/`storeChunks`. -/
structure DocumentInfo where
  type : String
  version : String
  url : String
deriving DecidableEq, Repr

/-- A row of the `documents` (vector chunk) table.  The embedding vector and
the formatted chunk text play no role in any claim; a stored chunk is
represented by the parsed rows its content formats plus its metadata. -/
structure StoredDoc where
  rows : List TariffRow
  version : String
  documentType : String
  fileUrl : String
deriving DecidableEq, Repr

/-- The two tables touched by this pipeline: `documents` and
`customs_tariff_rates` (the latter keyed by `document_version`). -/
structure PDFDatabase where
  documents : List StoredDoc
  tariffRates : List (String × TariffRow)
deriving DecidableEq, Repr

/-- Documents-table / rates-table operations recorded during ingestion. -/
inductive StoreEv where
  | ratesDeleteOld (version : String) (ok : Bool)
  | ratesInsert (n : Nat) (ok : Bool)
  | docsInsert (n : Nat) (ok : Bool)
  | docsDeleteOld (ok : Bool)
  | versionRecordWrite (ok : Bool)
  | rollbackDelete
deriving DecidableEq, Repr

/-- Outcomes of the external calls made during one ingestion. -/
structure IngestOracle where
  downloadOk : Bool
  embedBatchOk : Nat → Bool
  docsInsertOk : Bool
  docsInsertKeep : Nat → Bool
  docsDeleteOldOk : Bool
  rollbackThrows : Bool
  ratesDeleteOk : Bool
  ratesInsertOk : Nat → Bool

def dummyRow : TariffRow := ⟨[], [], 0, 0, 0, 0, 0, 0, 0⟩

/-- A chunk prepared by `createChunksFromTariffData` (content stands for
`formatChunkContent chunkRows`). -/
structure Chunk where
  rows : List TariffRow
  startHsCode : List Char
  endHsCode : List Char
  rowCount : Nat
deriving DecidableEq, Repr

/-- `PDFProcessor.createChunksFromTariffData` (pdfProcessor.js 230–250): the
loop `for (i = 0; i < rows.length; i += 50) slice(i, i + 50)` written as a map
over the batch indices. -/
def createChunksFromTariffData (tariffRows : List TariffRow) : List Chunk :=
  (List.range ((tariffRows.length + 49) / 50)).map fun k =>
    let chunkRows := (tariffRows.drop (k * 50)).take 50
    { rows := chunkRows
      startHsCode := (chunkRows.headD dummyRow).hsCode
      endHsCode := ((chunkRows.getLast?).getD dummyRow).hsCode
      rowCount := chunkRows.length }

/-- The rows prepared for insertion by `storeChunks` (content + metadata with
the new version, document type and file url). -/
def newDocsOf (chunks : List Chunk) (info : DocumentInfo) : List StoredDoc :=
  chunks.map fun c =>
    { rows := c.rows, version := info.version, documentType := info.type,
      fileUrl := info.url }

/-- The rollback `catch` of `storeChunks` (pdfProcessor.js 404–422): delete
every `documents` row whose metadata matches the new (version, documentType)
pair; if the delete itself throws the database is left as is. -/
def storeChunksRollback (info : DocumentInfo) (o : IngestOracle)
    (db : PDFDatabase) (evs : List StoreEv) (e : String) :
    Except String Unit × PDFDatabase × List StoreEv :=
  if o.rollbackThrows then (.error e, db, evs)
  else
    (.error e,
      { db with
        documents := db.documents.filter fun d =>
          !(d.version == info.version && d.documentType == info.type) },
      evs ++ [.rollbackDelete])

/-- `PDFProcessor.storeChunks` (pdfProcessor.js 336–423): embed in batches of
10, insert all new documents, then delete old documents of documentType
"tariff" with a different version (a failed delete is only logged).  Any
failure before that rolls back via `storeChunksRollback`.  A failing bulk
insert may leave an oracle-chosen subset of the new rows behind. -/
def storeChunks (chunks : List Chunk) (info : DocumentInfo) (o : IngestOracle)
    (db : PDFDatabase) : Except String Unit × PDFDatabase × List StoreEv :=
  let nBatches := (chunks.length + 9) / 10
  match (List.range nBatches).find? (fun i => !o.embedBatchOk i) with
  | some _ =>
    -- embedDocuments threw inside the batch loop: nothing was inserted yet
    storeChunksRollback info o db [] "embedDocuments failed"
  | none =>
    let newDocs := newDocsOf chunks info
    if o.docsInsertOk then
      let db₁ := { db with documents := db.documents ++ newDocs }
      let db₂ :=
        if o.docsDeleteOldOk then
          { db₁ with
            documents := db₁.documents.filter fun d =>
              !(d.documentType == "tariff" && d.version != info.version) }
        else db₁
      (.ok (), db₂,
        [.docsInsert newDocs.length true, .docsDeleteOld o.docsDeleteOldOk])
    else
      let kept := ((newDocs.enum).filter (fun p => o.docsInsertKeep p.1)).map (·.2)
      storeChunksRollback info o
        { db with documents := db.documents ++ kept }
        [.docsInsert newDocs.length false]
        "Failed to insert documents"

/-- `PDFProcessor.storeTariffRates` (pdfProcessor.js 261–334): delete rates of
the same `document_version` (a failure is only a warning), then insert the new
rates in batches of 100; the first failing batch aborts with an error.  The
caller (`processPDF`) catches and ignores this error. -/
def storeTariffRates (tariffRows : List TariffRow) (info : DocumentInfo)
    (o : IngestOracle) (db : PDFDatabase) :
    Except String Unit × PDFDatabase × List StoreEv :=
  let db₁ :=
    if o.ratesDeleteOk then
      { db with tariffRates := db.tariffRates.filter fun p => !(p.1 == info.version) }
    else db
  let ev₁ := [StoreEv.ratesDeleteOld info.version o.ratesDeleteOk]
  let nBatches := (tariffRows.length + 99) / 100
  match (List.range nBatches).find? (fun i => !o.ratesInsertOk i) with
  | some i =>
    (.error "Tariff rates storage failed",
      { db₁ with
        tariffRates :=
          db₁.tariffRates ++ (tariffRows.take (i * 100)).map (fun r => (info.version, r)) },
      ev₁ ++ [.ratesInsert (tariffRows.take (i * 100)).length false])
  | none =>
    (.ok (),
      { db₁ with
        tariffRates := db₁.tariffRates ++ tariffRows.map (fun r => (info.version, r)) },
      ev₁ ++ [.ratesInsert tariffRows.length true])

/-- `PDFProcessor.processPDF` (pdfProcessor.js 20–85) applied to the already
extracted text (`extractTextFromPDF` is the I/O boundary of the model): parse
the tariff table, build chunks, store rates (failures tolerated), store
chunks; every error is rethrown as `"PDF processing failed: ..."`. -/
def processPDF (fullText : List Char) (info : DocumentInfo) (o : IngestOracle)
    (db : PDFDatabase) : Except String Unit × PDFDatabase × List StoreEv :=
  match parseTariffTable fullText with
  | .error e => (.error ("PDF processing failed: " ++ e), db, [])
  | .ok tariffRows =>
    if tariffRows.length = 0 then
      (.error "PDF processing failed: No valid tariff entries found in PDF", db, [])
    else
      let chunks := createChunksFromTariffData tariffRows
      let r₁ := storeTariffRates tariffRows info o db
      -- the tariffError branch only logs; processing continues
      let r₂ := storeChunks chunks info o r₁.2.1
      match r₂.1 with
      | .ok _ => (.ok (), r₂.2.1, r₁.2.2 ++ r₂.2.2)
      | .error e => (.error ("PDF processing failed: " ++ e), r₂.2.1, r₁.2.2 ++ r₂.2.2)

/-- `WebsiteMonitor.processDocument` (src/unnamed/part_005, lines 553–595):
download, process with `PDFProcessor.processPDF`, then
`markDocumentAsProcessed` — which only logs and performs no store write, so it
contributes no event. -/
def processDocument (info : DocumentInfo) (fullText : List Char)
    (o : IngestOracle) (db : PDFDatabase) :
    Except String Unit × PDFDatabase × List StoreEv :=
  if !o.downloadOk then (.error "Download failed", db, [])
  else processPDF fullText info o db

/-- The ordering property claimed for the version-record write: every
effective deletion of old chunks is preceded in the trace by a successful
`document_versions` upsert. -/
def deleteGatedOnVersionWrite (tr : List StoreEv) : Prop :=
  ∀ i : Fin tr.length, tr.get i = .docsDeleteOld true →
    ∃ j : Fin tr.length, j.val < i.val ∧ tr.get j = .versionRecordWrite true

instance (tr : List StoreEv) : Decidable (deleteGatedOnVersionWrite tr) := by
  unfold deleteGatedOnVersionWrite
  infer_instance

theorem newDocsOf_version {chunks : List Chunk} {info : DocumentInfo}
    {d : StoredDoc} (hd : d ∈ newDocsOf chunks info) :
    d.version = info.version ∧ d.documentType = info.type := by
  unfold newDocsOf at hd
  obtain ⟨c, _, rfl⟩ := List.mem_map.mp hd
  exact ⟨rfl, rfl⟩

/-- C2 (amended): in `storeChunks`, deletion of old chunks happens only after
the insertion of the new version's chunks has succeeded — in every trace an
effective `docsDeleteOld` is preceded by a successful `docsInsert` of all new
chunks — and on success every new chunk row is present in the final
`documents` table (the old-version delete only matches rows of a different
version).  The translated path performs no `document_versions` write at all
(`markDocumentAsProcessed` only logs), so deletion is gated on insertion
success alone, not on a version-record commit. -/
theorem storeChunks_insert_precedes_delete (chunks : List Chunk)
    (info : DocumentInfo) (o : IngestOracle) (db : PDFDatabase)
    (res : Except String Unit) (db' : PDFDatabase) (tr : List StoreEv)
    (h : storeChunks chunks info o db = (res, db', tr)) :
    (∀ i : Fin tr.length, tr.get i = .docsDeleteOld true →
        ∃ j : Fin tr.length, j.val < i.val ∧
          tr.get j = .docsInsert (newDocsOf chunks info).length true) ∧
      (res = .ok () → ∀ d ∈ newDocsOf chunks info, d ∈ db'.documents) := by
  unfold storeChunks at h
  dsimp only [] at h
  cases hFind : (List.range ((chunks.length + 9) / 10)).find? (fun i => !o.embedBatchOk i) with
  | some i =>
    rw [hFind] at h
    dsimp only [] at h
    unfold storeChunksRollback at h
    cases hRb : o.rollbackThrows with
    | true =>
      rw [hRb] at h
      simp only [if_true] at h
      obtain ⟨rfl, rfl, rfl⟩ := Prod.mk.injEq .. ▸ h
      exact ⟨fun i hi => absurd hi (by fin_cases i), fun hok => by simp at hok⟩
    | false =>
      rw [hRb] at h
      simp only [Bool.false_eq_true, if_false, List.nil_append] at h
      obtain ⟨rfl, rfl, rfl⟩ := Prod.mk.injEq .. ▸ h
      refine ⟨fun i hi => absurd hi ?_, fun hok => by simp at hok⟩
      fin_cases i <;> simp
  | none =>
    rw [hFind] at h
    dsimp only [] at h
    cases hIns : o.docsInsertOk with
    | true =>
      rw [hIns] at h
      simp only [if_true] at h
      obtain ⟨rfl, rfl, rfl⟩ := Prod.mk.injEq .. ▸ h
      constructor
      · intro i hi
        fin_cases i
        · exact absurd hi (by simp)
        · exact ⟨⟨0, by simp⟩, by simp, rfl⟩
      · intro _ d hd
        have hv := newDocsOf_version hd
        split
        · refine List.mem_filter.mpr ⟨List.mem_append_right _ hd, ?_⟩
          simp [hv.1]
        · exact List.mem_append_right _ hd
    | false =>
      rw [hIns] at h
      simp only [Bool.false_eq_true, if_false] at h
      unfold storeChunksRollback at h
      cases hRb : o.rollbackThrows with
      | true =>
        rw [hRb] at h
        simp only [if_true] at h
        obtain ⟨rfl, rfl, rfl⟩ := Prod.mk.injEq .. ▸ h
        refine ⟨fun i hi => absurd hi ?_, fun hok => by simp at hok⟩
        fin_cases i <;> simp
      | false =>
        rw [hRb] at h
        simp only [Bool.false_eq_true, if_false] at h
        obtain ⟨rfl, rfl, rfl⟩ := Prod.mk.injEq .. ▸ h
        refine ⟨fun i hi => absurd hi ?_, fun hok => by simp at hok⟩
        fin_cases i <;> simp

def sampleChunk : Chunk := ⟨[], str2l "01012100", str2l "01012100", 0⟩

def tariffInfo : DocumentInfo := ⟨"tariff", "2025-2026", "u"⟩

/-- An execution in which every external call succeeds. -/
def allOkOracle : IngestOracle :=
  ⟨true, fun _ => true, true, fun _ => true, true, false, true, fun _ => true⟩

def oldVersionDb : PDFDatabase := ⟨[⟨[], "2023-2024", "tariff", "u0"⟩], []⟩

theorem storeChunks_insert_precedes_delete_witness :
    storeChunks [sampleChunk] tariffInfo allOkOracle oldVersionDb =
        (.ok (), ⟨[⟨[], "2025-2026", "tariff", "u"⟩], []⟩,
          [.docsInsert 1 true, .docsDeleteOld true]) ∧
      ((∀ i : Fin ([StoreEv.docsInsert 1 true, StoreEv.docsDeleteOld true] : List StoreEv).length,
          ([StoreEv.docsInsert 1 true, StoreEv.docsDeleteOld true] : List StoreEv).get i =
              .docsDeleteOld true →
            ∃ j : Fin ([StoreEv.docsInsert 1 true, StoreEv.docsDeleteOld true] : List StoreEv).length,
              j.val < i.val ∧
                ([StoreEv.docsInsert 1 true, StoreEv.docsDeleteOld true] : List StoreEv).get j =
                  .docsInsert (newDocsOf [sampleChunk] tariffInfo).length true) ∧
        ((Except.ok () : Except String Unit) = .ok () →
          ∀ d ∈ newDocsOf [sampleChunk] tariffInfo,
            d ∈ (⟨[⟨[], "2025-2026", "tariff", "u"⟩], []⟩ : PDFDatabase).documents)) :=
  ⟨rfl,
    storeChunks_insert_precedes_delete [sampleChunk] tariffInfo allOkOracle oldVersionDb
      (.ok ()) ⟨[⟨[], "2025-2026", "tariff", "u"⟩], []⟩
      [.docsInsert 1 true, .docsDeleteOld true] rfl⟩

def headeredOneRowText : List Char :=
  str2l "HSCODE DESCRIPTION CD\n01012100 Horses 5 0 0 5 0 0 10"

/-- C2 counterexample: a fully successful ingestion of a new tariff version
deletes the superseded chunks (`docsDeleteOld true` is in the trace) although
no `document_versions` write (`versionRecordWrite`) ever precedes it — the
code performs none — so "deletion happens only after the version-record write
has succeeded" is false on this execution. -/
theorem processDocument_versionWrite_cx :
    (processDocument tariffInfo headeredOneRowText allOkOracle oldVersionDb).1 = .ok () ∧
      ¬ deleteGatedOnVersionWrite
        (processDocument tariffInfo headeredOneRowText allOkOracle oldVersionDb).2.2 := by
  exact ⟨rfl, by decide⟩

theorem filter_not_filter_self (p : StoredDoc → Bool) (l : List StoredDoc) :
    (l.filter (fun x => !p x)).filter p = [] := by
  induction l with
  | nil => rfl
  | cons a l ih =>
    by_cases h : p a = true
    · simp [List.filter_cons, h, ih]
    · simp only [Bool.not_eq_true] at h
      simp [List.filter_cons, h, ih]

theorem filter_not_idem (p : StoredDoc → Bool) (l : List StoredDoc) :
    (l.filter (fun x => !p x)).filter (fun x => !p x) = l.filter (fun x => !p x) := by
  rw [List.filter_filter]
  exact List.filter_congr fun x _ => by cases p x <;> rfl

/-- C3: whenever `storeChunks` fails, its rollback (when the rollback delete
itself does not throw) leaves zero chunks of the new (documentType, version)
pair in the `documents` table and leaves every chunk of any other
(documentType, version) pair — in particular the prior active version —
exactly as it was. -/
theorem storeChunks_rollback_clean (chunks : List Chunk) (info : DocumentInfo)
    (o : IngestOracle) (db : PDFDatabase) (res : Except String Unit)
    (db' : PDFDatabase) (tr : List StoreEv)
    (h : storeChunks chunks info o db = (res, db', tr))
    (hfail : res ≠ .ok ()) (hrb : o.rollbackThrows = false) :
    db'.documents.filter
        (fun d => d.version == info.version && d.documentType == info.type) = [] ∧
      db'.documents.filter
          (fun d => !(d.version == info.version && d.documentType == info.type)) =
        db.documents.filter
          (fun d => !(d.version == info.version && d.documentType == info.type)) := by
  unfold storeChunks at h
  dsimp only [] at h
  cases hFind : (List.range ((chunks.length + 9) / 10)).find? (fun i => !o.embedBatchOk i) with
  | some i =>
    rw [hFind] at h
    dsimp only [] at h
    unfold storeChunksRollback at h
    rw [hrb] at h
    simp only [Bool.false_eq_true, if_false, List.nil_append] at h
    obtain ⟨rfl, rfl, rfl⟩ := Prod.mk.injEq .. ▸ h
    exact ⟨filter_not_filter_self _ _, filter_not_idem _ _⟩
  | none =>
    rw [hFind] at h
    dsimp only [] at h
    cases hIns : o.docsInsertOk with
    | true =>
      rw [hIns] at h
      simp only [if_true] at h
      obtain ⟨rfl, rfl, rfl⟩ := Prod.mk.injEq .. ▸ h
      exact absurd rfl hfail
    | false =>
      rw [hIns] at h
      simp only [Bool.false_eq_true, if_false] at h
      unfold storeChunksRollback at h
      rw [hrb] at h
      simp only [Bool.false_eq_true, if_false] at h
      obtain ⟨rfl, rfl, rfl⟩ := Prod.mk.injEq .. ▸ h
      refine ⟨filter_not_filter_self _ _, ?_⟩
      rw [filter_not_idem]
      rw [List.filter_append]
      have hkept : ∀ d ∈ (((newDocsOf chunks info).enum).filter
          (fun p => o.docsInsertKeep p.1)).map (·.2),
          (d.version == info.version && d.documentType == info.type) = true := by
        intro d hd
        obtain ⟨p, hp, rfl⟩ := List.mem_map.mp hd
        have hmem : p ∈ (newDocsOf chunks info).enum := List.mem_of_mem_filter hp
        have h2 : p.2 ∈ newDocsOf chunks info :=
          List.get?_mem (List.mem_enum_iff_get?.mp hmem)
        have hv := newDocsOf_version h2
        simp [hv.1, hv.2]
      have hnil :
          List.filter (fun d => !(d.version == info.version && d.documentType == info.type))
            ((((newDocsOf chunks info).enum).filter (fun p => o.docsInsertKeep p.1)).map (·.2)) =
            [] := by
        refine List.filter_eq_nil.mpr ?_
        intro d hd
        simp [hkept d hd]
      rw [hnil, List.append_nil]

/-- An execution whose bulk insert into `documents` fails (and whose rollback
delete succeeds): the whole kept subset is chosen. -/
def failInsOracle : IngestOracle :=
  ⟨true, fun _ => true, false, fun _ => true, true, false, true, fun _ => true⟩

theorem storeChunks_rollback_clean_witness :
    storeChunks [sampleChunk] tariffInfo failInsOracle oldVersionDb =
        (.error "Failed to insert documents", oldVersionDb,
          [.docsInsert 1 false, .rollbackDelete]) ∧
      ((Except.error "Failed to insert documents" : Except String Unit) ≠ .ok ()) ∧
      (oldVersionDb.documents.filter
          (fun d => d.version == tariffInfo.version && d.documentType == tariffInfo.type) = [] ∧
        oldVersionDb.documents.filter
            (fun d => !(d.version == tariffInfo.version && d.documentType == tariffInfo.type)) =
          oldVersionDb.documents.filter
            (fun d => !(d.version == tariffInfo.version && d.documentType == tariffInfo.type))) :=
  ⟨rfl, by simp,
    storeChunks_rollback_clean [sampleChunk] tariffInfo failInsOracle oldVersionDb
      (.error "Failed to insert documents") oldVersionDb
      [.docsInsert 1 false, .rollbackDelete] rfl (by simp) rfl⟩

/-- C4 (amended): a document text in which no line matches the header
signature makes `parseTariffTable` fail with the header-not-found error, and
`processPDF` rethrows it, failing that document's ingestion attempt — no
model-assisted fallback extraction runs on this path. -/
theorem headerNotFound_fails (text : List Char) (info : DocumentInfo)
    (o : IngestOracle) (db : PDFDatabase)
    (h : ∀ l ∈ text.splitOn '\n', headerMatch l = false) :
    parseTariffTable text = .error "Could not find tariff table header" ∧
      processPDF text info o db =
        (.error "PDF processing failed: Could not find tariff table header", db, []) := by
  have hf : (text.splitOn '\n').findIdx? headerMatch = none :=
    List.findIdx?_eq_none_iff.mpr h
  have h1 : parseTariffTable text = .error "Could not find tariff table header" := by
    unfold parseTariffTable
    dsimp only []
    rw [hf]
  refine ⟨h1, ?_⟩
  unfold processPDF
  rw [h1]
  rfl

def noHeaderText : List Char := str2l "just some text\nwith no tariff header anywhere"

theorem headerNotFound_fails_witness :
    (∀ l ∈ noHeaderText.splitOn '\n', headerMatch l = false) ∧
      (parseTariffTable noHeaderText = .error "Could not find tariff table header" ∧
        processPDF noHeaderText tariffInfo allOkOracle oldVersionDb =
          (.error "PDF processing failed: Could not find tariff table header",
            oldVersionDb, [])) :=
  ⟨by decide, headerNotFound_fails noHeaderText tariffInfo allOkOracle oldVersionDb (by decide)⟩

/-- C4 counterexample: on a header-less document the ingestion attempt fails
immediately — `processPDF` returns the wrapped header error, no chunks or
rates are written and no fallback extraction is attempted (the event trace is
empty) — contradicting the claim that this failure triggers a model-assisted
fallback path rather than failure of the document's ingestion. -/
theorem headerNotFound_immediate_failure_cx :
    processDocument tariffInfo noHeaderText allOkOracle oldVersionDb =
      (.error "PDF processing failed: Could not find tariff table header",
        oldVersionDb, []) := rfl

def structureDriftText : List Char :=
  str2l "HSCODE DESCRIPTION CD\nxxxxxxxxxxxxxxx\nyyyyyyyyyyyyyyy"

/-- C1 counterexample: with a recognizable header and a 100 % row-failure
rate (2 failed / 2 total > 0.3) the heuristic parse is abandoned with the
structure-drift error and the document's processing simply fails — the event
trace is empty, so no fallback extraction path is invoked in its favour. -/
theorem structureDrift_immediate_failure_cx :
    processDocument tariffInfo structureDriftText allOkOracle oldVersionDb =
      (.error "PDF processing failed: PDF structure may have changed",
        oldVersionDb, []) := rfl

def sampleRowLine : List Char := str2l "01012100 Horses 5 0 0 5 0 0 10"

def sampleRow : TariffRow := ⟨str2l "01012100", str2l "Horses", 5, 0, 0, 5, 0, 0, 10⟩

theorem parseTariffRow_row_invariant_witness :
    parseTariffRow sampleRowLine = some sampleRow ∧
      ((sampleRow.hsCode.length = 8 ∧ sampleRow.hsCode.all Char.isDigit = true) ∧
        (0 ≤ sampleRow.cd ∧ sampleRow.cd ≤ 99999999 / 1000) ∧
        (0 ≤ sampleRow.sd ∧ sampleRow.sd ≤ 99999999 / 1000) ∧
        (0 ≤ sampleRow.vat ∧ sampleRow.vat ≤ 99999999 / 1000) ∧
        (0 ≤ sampleRow.ait ∧ sampleRow.ait ≤ 99999999 / 1000) ∧
        (0 ≤ sampleRow.rd ∧ sampleRow.rd ≤ 99999999 / 1000) ∧
        (0 ≤ sampleRow.at' ∧ sampleRow.at' ≤ 99999999 / 1000) ∧
        (0 ≤ sampleRow.tti ∧ sampleRow.tti ≤ 99999999 / 1000)) :=
  ⟨by decide, parseTariffRow_row_invariant sampleRowLine sampleRow (by decide)⟩

/-! ## `RAGAgent.classifyHSCode` post-processing (ragAgent.js 145–162)

A generated suggestion as parsed from the model's JSON; a missing or null
`confidence` is `none` (JS `suggestion.confidence || 0` then treats it as 0).
`enhanceSuggestionsWithMetadata` maps each surviving suggestion to an enriched
copy, preserving `code`, `confidence`, order and multiplicity, so the
filter + sort below is the whole of the list-shaping post-processing. -/

structure Suggestion where
  code : String
  description : String
  confidence : Option ℚ
  rationale : List String
deriving DecidableEq, Repr

/-- `suggestion.confidence || 0`. -/
def confOf (s : Suggestion) : ℚ := s.confidence.getD 0

/-- Insert while keeping a non-increasing-confidence order, placing the new
element after existing elements of equal confidence: this is exactly the
output shape of JS's stable `Array.prototype.sort` with comparator
`(b.confidence || 0) - (a.confidence || 0)`. -/
def insertByConfDesc (x : Suggestion) : List Suggestion → List Suggestion
  | [] => [x]
  | y :: ys => if confOf y < confOf x then x :: y :: ys else y :: insertByConfDesc x ys

def sortByConfDesc (l : List Suggestion) : List Suggestion :=
  l.foldl (fun acc x => insertByConfDesc x acc) []

/-- The mandatory post-processing of `classifyHSCode`: keep suggestions with
confidence ≥ 0.15 (`mkRat 15 100`), then sort by confidence, descending.
No deduplication by code appears in the source. -/
def classifyPostProcess (suggestions : List Suggestion) : List Suggestion :=
  sortByConfDesc (suggestions.filter (fun s => mkRat 15 100 ≤ confOf s))

theorem mem_insertByConfDesc {a x : Suggestion} {l : List Suggestion} :
    a ∈ insertByConfDesc x l ↔ a = x ∨ a ∈ l := by
  induction l with
  | nil => simp [insertByConfDesc]
  | cons y ys ih =>
    unfold insertByConfDesc
    by_cases h : confOf y < confOf x
    · simp [h]
    · simp [h, ih]
      tauto

theorem sorted_insertByConfDesc (x : Suggestion) (l : List Suggestion)
    (h : l.Pairwise (fun a b => confOf b ≤ confOf a)) :
    (insertByConfDesc x l).Pairwise (fun a b => confOf b ≤ confOf a) := by
  induction l with
  | nil => simp [insertByConfDesc]
  | cons y ys ih =>
    unfold insertByConfDesc
    obtain ⟨hy, hys⟩ := List.pairwise_cons.mp h
    by_cases hcmp : confOf y < confOf x
    · rw [if_pos hcmp]
      refine List.pairwise_cons.mpr ⟨?_, h⟩
      intro b hb
      rcases List.mem_cons.mp hb with rfl | hb
      · exact le_of_lt hcmp
      · exact le_trans (hy b hb) (le_of_lt hcmp)
    · rw [if_neg hcmp]
      refine List.pairwise_cons.mpr ⟨?_, ih hys⟩
      intro b hb
      rcases mem_insertByConfDesc.mp hb with rfl | hb
      · exact le_of_not_lt hcmp
      · exact hy b hb

theorem perm_insertByConfDesc (x : Suggestion) (l : List Suggestion) :
    (insertByConfDesc x l).Perm (x :: l) := by
  induction l with
  | nil => simp [insertByConfDesc]
  | cons y ys ih =>
    unfold insertByConfDesc
    by_cases h : confOf y < confOf x
    · simp [h]
    · rw [if_neg h]
      exact List.Perm.trans ((ih).cons y) (List.Perm.swap x y ys)

theorem sortByConfDesc_go (l : List Suggestion) :
    ∀ acc, acc.Pairwise (fun a b => confOf b ≤ confOf a) →
      (l.foldl (fun acc x => insertByConfDesc x acc) acc).Pairwise
          (fun a b => confOf b ≤ confOf a) ∧
        (l.foldl (fun acc x => insertByConfDesc x acc) acc).Perm (acc ++ l) := by
  induction l with
  | nil =>
    intro acc hacc
    exact ⟨by simpa using hacc, by simpa using List.Perm.refl acc⟩
  | cons x xs ih =>
    intro acc hacc
    simp only [List.foldl_cons]
    obtain ⟨hs, hp⟩ := ih (insertByConfDesc x acc) (sorted_insertByConfDesc x acc hacc)
    refine ⟨hs, hp.trans ?_⟩
    have h1 : (insertByConfDesc x acc ++ xs).Perm ((x :: acc) ++ xs) :=
      (perm_insertByConfDesc x acc).append_right xs
    have h2 : ((x :: acc) ++ xs).Perm (acc ++ x :: xs) := by
      simpa using List.perm_middle.symm
    exact h1.trans h2

/-- C5 (amended): the post-processing of `classifyHSCode` returns exactly the
generated suggestions with confidence ≥ 0.15 (preserving multiplicity — no
deduplication by code is performed), arranged in non-increasing (not strictly
decreasing) order of confidence. -/
theorem classifyPostProcess_spec (suggestions : List Suggestion) :
    (∀ s ∈ classifyPostProcess suggestions, mkRat 15 100 ≤ confOf s) ∧
      (classifyPostProcess suggestions).Pairwise (fun a b => confOf b ≤ confOf a) ∧
      (classifyPostProcess suggestions).Perm
        (suggestions.filter (fun s => mkRat 15 100 ≤ confOf s)) := by
  obtain ⟨hs, hp⟩ := sortByConfDesc_go
    (suggestions.filter (fun s => mkRat 15 100 ≤ confOf s)) [] (by simp)
  have hperm : (classifyPostProcess suggestions).Perm
      (suggestions.filter (fun s => mkRat 15 100 ≤ confOf s)) := by
    unfold classifyPostProcess sortByConfDesc
    simpa using hp
  refine ⟨?_, hs, hperm⟩
  intro s hsMem
  have : s ∈ suggestions.filter (fun s => mkRat 15 100 ≤ confOf s) :=
    hperm.mem_iff.mp hsMem
  have := List.of_mem_filter this
  exact of_decide_eq_true this

def dupCodeSuggestions : List Suggestion :=
  [⟨"6109.10.00", "d1", some (mkRat 9 10), []⟩,
   ⟨"6109.10.00", "d2", some (mkRat 9 10), []⟩]

/-- C5 counterexample: two generated suggestions carrying the same code (both
with confidence 0.9 ≥ 0.15) both survive the post-processing unchanged; the
output is not unique by code, and with the tie it is not strictly descending
either. -/
theorem classifyPostProcess_no_dedup_cx :
    classifyPostProcess dupCodeSuggestions = dupCodeSuggestions ∧
      ¬ ((classifyPostProcess dupCodeSuggestions).map (fun s => s.code)).Nodup := by
  refine ⟨by decide, ?_⟩
  intro h
  rw [show classifyPostProcess dupCodeSuggestions = dupCodeSuggestions from by decide] at h
  simp [dupCodeSuggestions] at h

/-! ## `RAGAgent.searchRelevantDocuments` (ragAgent.js 416–607)

Results are represented by their chunk ids (the `id` column returned by the
`match_chapter_documents` / `match_documents` RPCs); all merging and
deduplication in the source operates on `r.id` only.  The oracle resolves the
four kinds of vector-search calls; `none` stands for a failed call (RPC error
or a thrown embedding request). -/

structure SearchOracle where
  nbr : Option (List Nat)
  customs : Option (List Nat)
  varSearch : Nat → Option (List Nat)
  broad : Option (List Nat)

structure SearchRun where
  r1 : List Nat
  customsCalled : Bool
  r2 : List Nat
  final : List Nat
deriving DecidableEq, Repr

/-- `String.prototype.replace(pat, "")` for a string pattern: remove the first
occurrence. -/
def removeFirstSeg (pat : List Char) : List Char → List Char
  | [] => []
  | c :: cs =>
    if pat.isPrefixOf (c :: cs) then (c :: cs).drop pat.length
    else c :: removeFirstSeg pat cs

def altMarker : List Char := str2l "AI-Generated Search Alternatives:"

/-- The four query variations built from the alternatives line
(`searchVariations` in the source). -/
def searchVariationsOf (alternatives : List (List Char)) : List (List Char) :=
  [List.intercalate [' '] (alternatives.take 5),
   List.intercalate [' '] ((alternatives.drop 5).take 5),
   List.intercalate [' ']
     (alternatives.filter fun t =>
       hasSeg (str2l "cotton") t || hasSeg (str2l "polyester") t || hasSeg (str2l "wool") t),
   List.intercalate [' ']
     (alternatives.filter fun t =>
       hasSeg (str2l "shirt") t || hasSeg (str2l "trouser") t || hasSeg (str2l "dress") t)]

/-- One iteration of the alternative-search loop: run the variation only when
it is nonempty after trimming and fewer than 12 results are collected, and add
only results whose id is not already present. -/
def variationStep (o : SearchOracle) (acc : List Nat) (kv : Nat × List Char) : List Nat :=
  if !(trimJS kv.2).isEmpty && acc.length < 12 then
    match o.varSearch kv.1 with
    | some varData => acc ++ varData.filter (fun id => !acc.contains id)
    | none => acc
  else acc

/-- Stages 3 and 4 (alternative searches and the broad general-term fallback)
applied to the stage-2 result list. -/
def lateStages (query : List Char) (o : SearchOracle) (r2 : List Nat) : List Nat :=
  if r2.length < 8 then
    let r3 :=
      match (query.splitOn '\n').find? (fun line => hasSeg altMarker line) with
      | some alternativesLine =>
        let alternatives := (trimJS (removeFirstSeg altMarker alternativesLine)).splitOn ' '
        ((searchVariationsOf alternatives).enum).foldl (variationStep o) r2
      | none => r2
    if r3.length < 5 then
      match o.broad with
      | some broadData => r3 ++ broadData.filter (fun id => !r3.contains id)
      | none => r3
    else r3
  else r2

/-- `RAGAgent.searchRelevantDocuments`: primary NBR search, customs fallback
when fewer than 5 primary results, then the late stages.  The only `throw`
(both primary searches failed with nothing collected) is the `.error`. -/
def searchRelevantDocuments (query : List Char) (o : SearchOracle) :
    Except String SearchRun :=
  let r1 :=
    match o.nbr with
    | none => []
    | some nbrData => if 0 < nbrData.length then nbrData else []
  if r1.length < 5 then
    match o.customs with
    | none =>
      if r1.length = 0 then .error "Both NBR and customs vector searches failed"
      else .ok ⟨r1, true, r1, lateStages query o r1⟩
    | some customsData =>
      let r2 := if 0 < customsData.length then r1 ++ customsData else r1
      .ok ⟨r1, true, r2, lateStages query o r2⟩
  else .ok ⟨r1, false, r1, lateStages query o r1⟩

/-- `l` extends `base` by appending only fresh, pairwise-distinct ids. -/
def ExtendsNodup (base l : List Nat) : Prop :=
  (∃ tail, l = base ++ tail) ∧ (l.drop base.length).Nodup ∧
    ∀ id ∈ l.drop base.length, id ∉ base

theorem extendsNodup_refl (base : List Nat) : ExtendsNodup base base :=
  ⟨⟨[], by simp⟩, by simp, by simp⟩

theorem extendsNodup_append_filter (base acc new : List Nat)
    (h : ExtendsNodup base acc) (hnew : new.Nodup) :
    ExtendsNodup base (acc ++ new.filter (fun id => !acc.contains id)) := by
  obtain ⟨⟨tail, rfl⟩, hnd, hfresh⟩ := h
  have hdrop : (base ++ tail).drop base.length = tail := List.drop_left base tail
  rw [hdrop] at hnd hfresh
  refine ⟨⟨tail ++ new.filter (fun id => !(base ++ tail).contains id), by simp⟩, ?_, ?_⟩
  · rw [List.append_assoc, List.drop_left]
    rw [List.nodup_append]
    refine ⟨hnd, hnew.filter _, ?_⟩
    intro a ha hb
    have hmm := List.of_mem_filter hb
    simp only [Bool.not_eq_true'] at hmm
    have : a ∉ base ++ tail := by simpa using hmm
    exact this (List.mem_append_right base ha)
  · rw [List.append_assoc, List.drop_left]
    intro id hid
    rcases List.mem_append.mp hid with hid | hid
    · exact hfresh id hid
    · have hmm := List.of_mem_filter hid
      simp only [Bool.not_eq_true'] at hmm
      have : id ∉ base ++ tail := by simpa using hmm
      exact fun hbase => this (List.mem_append_left tail hbase)

theorem variationStep_extends (o : SearchOracle) (base acc : List Nat)
    (kv : Nat × List Char) (h : ExtendsNodup base acc)
    (hv : ∀ k l, o.varSearch k = some l → l.Nodup) :
    ExtendsNodup base (variationStep o acc kv) := by
  unfold variationStep
  split
  · cases hvs : o.varSearch kv.1 with
    | some varData => exact extendsNodup_append_filter base acc varData h (hv _ _ hvs)
    | none => exact h
  · exact h

theorem foldl_variationStep_extends (o : SearchOracle) (base : List Nat)
    (kvs : List (Nat × List Char)) (hv : ∀ k l, o.varSearch k = some l → l.Nodup) :
    ∀ acc, ExtendsNodup base acc → ExtendsNodup base (kvs.foldl (variationStep o) acc) := by
  induction kvs with
  | nil => intro acc h; exact h
  | cons kv kvs ih =>
    intro acc h
    exact ih _ (variationStep_extends o base acc kv h hv)

theorem lateStages_extends (query : List Char) (o : SearchOracle) (r2 : List Nat)
    (hv : ∀ k l, o.varSearch k = some l → l.Nodup)
    (hb : ∀ l, o.broad = some l → l.Nodup) :
    ExtendsNodup r2 (lateStages query o r2) := by
  unfold lateStages
  split
  · have h3 : ∀ r3 : List Nat, ExtendsNodup r2 r3 →
        ExtendsNodup r2
          (if r3.length < 5 then
            match o.broad with
            | some broadData => r3 ++ broadData.filter (fun id => !r3.contains id)
            | none => r3
          else r3) := by
      intro r3 h3
      split
      · cases hbr : o.broad with
        | some broadData => exact extendsNodup_append_filter r2 r3 broadData h3 (hb _ hbr)
        | none => exact h3
      · exact h3
    split
    · exact h3 _ (foldl_variationStep_extends o r2 _ hv r2 (extendsNodup_refl r2))
    · exact h3 _ (extendsNodup_refl r2)
  · exact extendsNodup_refl r2

/-- C6 (amended): in the cascading retrieval search every stage only appends
to the running result set; the secondary (customs) corpus fallback runs
exactly when the primary search produced fewer than 5 results; the
variant-query and broad-fallback stages add only ids not already present
(and mutually distinct, given that each individual search returns
distinct ids); but the primary/secondary merge itself concatenates without
deduplication, so equal ids across the two corpora may both remain. -/
theorem searchRelevantDocuments_stages (query : List Char) (o : SearchOracle)
    (run : SearchRun) (h : searchRelevantDocuments query o = .ok run)
    (hv : ∀ k l, o.varSearch k = some l → l.Nodup)
    (hb : ∀ l, o.broad = some l → l.Nodup) :
    (run.customsCalled = decide (run.r1.length < 5)) ∧
      (∃ tail, run.r2 = run.r1 ++ tail) ∧
      (∃ tail, run.final = run.r2 ++ tail) ∧
      (run.final.drop run.r2.length).Nodup ∧
      (∀ id ∈ run.final.drop run.r2.length, id ∉ run.r2) := by
  unfold searchRelevantDocuments at h
  dsimp only [] at h
  set r1 := (match o.nbr with
    | none => []
    | some nbrData => if 0 < nbrData.length then nbrData else []) with hr1
  by_cases h5 : r1.length < 5
  · rw [if_pos h5] at h
    cases hc : o.customs with
    | none =>
      rw [hc] at h
      by_cases h0 : r1.length = 0
      · rw [if_pos h0] at h
        exact absurd h (by simp)
      · rw [if_neg h0] at h
        obtain ⟨rfl⟩ := Except.ok.inj h
        have he := lateStages_extends query o r1 hv hb
        exact ⟨by simp [h5], ⟨[], by simp⟩, he.1, he.2.1, he.2.2⟩
    | some customsData =>
      rw [hc] at h
      dsimp only [] at h
      obtain ⟨rfl⟩ := Except.ok.inj h
      have he := lateStages_extends query o
        (if 0 < customsData.length then r1 ++ customsData else r1) hv hb
      refine ⟨by simp [h5], ?_, he.1, he.2.1, he.2.2⟩
      split
      · exact ⟨customsData, rfl⟩
      · exact ⟨[], by simp⟩
  · rw [if_neg h5] at h
    obtain ⟨rfl⟩ := Except.ok.inj h
    have he := lateStages_extends query o r1 hv hb
    exact ⟨by simp [h5], ⟨[], by simp⟩, he.1, he.2.1, he.2.2⟩

/-- Primary corpus returns 3 results, secondary returns 8 fresh ones; the
later stages find nothing to do. -/
def searchOracleFresh : SearchOracle :=
  ⟨some [1, 2, 3], some [10, 11, 12, 13, 14, 15, 16, 17], fun _ => none, none⟩

def searchRunFresh : SearchRun :=
  ⟨[1, 2, 3], true, [1, 2, 3, 10, 11, 12, 13, 14, 15, 16, 17],
    [1, 2, 3, 10, 11, 12, 13, 14, 15, 16, 17]⟩

theorem searchRelevantDocuments_stages_witness :
    searchRelevantDocuments [] searchOracleFresh = .ok searchRunFresh ∧
      ((searchRunFresh.customsCalled = decide (searchRunFresh.r1.length < 5)) ∧
        (∃ tail, searchRunFresh.r2 = searchRunFresh.r1 ++ tail) ∧
        (∃ tail, searchRunFresh.final = searchRunFresh.r2 ++ tail) ∧
        (searchRunFresh.final.drop searchRunFresh.r2.length).Nodup ∧
        (∀ id ∈ searchRunFresh.final.drop searchRunFresh.r2.length,
          id ∉ searchRunFresh.r2)) :=
  ⟨rfl,
    searchRelevantDocuments_stages [] searchOracleFresh searchRunFresh rfl
      (fun k l hl => by simp [searchOracleFresh] at hl)
      (fun l hl => by simp [searchOracleFresh] at hl)⟩

/-- Primary corpus returns ids 1,2,3; the secondary corpus also contains id 1. -/
def searchOracleOverlap : SearchOracle :=
  ⟨some [1, 2, 3], some [1, 10, 11, 12, 13, 14, 15, 16], fun _ => none, none⟩

/-- C6 counterexample: when the primary corpus returns 3 results and the
secondary returns 8 of which one carries an id already present, the merged
result set keeps both occurrences — the final list has two entries with chunk
id 1, refuting "the final merged result set contains no two entries with the
same chunk id". -/
theorem searchRelevantDocuments_dup_id_cx :
    searchRelevantDocuments [] searchOracleOverlap =
        .ok ⟨[1, 2, 3], true, [1, 2, 3, 1, 10, 11, 12, 13, 14, 15, 16],
          [1, 2, 3, 1, 10, 11, 12, 13, 14, 15, 16]⟩ ∧
      ¬ ([1, 2, 3, 1, 10, 11, 12, 13, 14, 15, 16] : List Nat).Nodup :=
  ⟨rfl, by decide⟩

/-! ## `fallbackAnalysis` (the rule-based tech-pack analysis fallback in the
file bundled with pdfMonitorScheduler.js, lines 495–909 of the combined file).

Strings are `List Char`; `inc lt kw` is `lowerText.includes(kw)`. -/

def isAsciiLetter (c : Char) : Bool :=
  ('a' ≤ c && c ≤ 'z') || ('A' ≤ c && c ≤ 'Z')

def inc (lt : List Char) (kw : String) : Bool := hasSeg (str2l kw) lt

/-- One attempt of `/(\d+)%\s*([a-zA-Z]+)|([a-zA-Z]+)\s*(\d+)%/` at the head
of `l`; returns the matched substring and the rest of the input.  Both
alternatives are deterministic here because the character classes
(digits, `%`, whitespace, letters) are pairwise disjoint, so greedy matching
never needs to backtrack. -/
def matchPercentAt (l : List Char) : Option (List Char × List Char) :=
  let ds := l.takeWhile Char.isDigit
  let b1 :=
    if ds.isEmpty then none
    else
      match l.drop ds.length with
      | '%' :: rest =>
        let ws := rest.takeWhile jsWs
        let ls := (rest.drop ws.length).takeWhile isAsciiLetter
        if ls.isEmpty then none
        else some (ds ++ '%' :: (ws ++ ls), (rest.drop ws.length).drop ls.length)
      | _ => none
  match b1 with
  | some r => some r
  | none =>
    let ls := l.takeWhile isAsciiLetter
    if ls.isEmpty then none
    else
      let rest := l.drop ls.length
      let ws := rest.takeWhile jsWs
      let ds₂ := (rest.drop ws.length).takeWhile Char.isDigit
      if ds₂.isEmpty then none
      else
        match (rest.drop ws.length).drop ds₂.length with
        | '%' :: rest₂ => some (ls ++ ws ++ ds₂ ++ ['%'], rest₂)
        | _ => none

/-- `text.match(/(\d+)%\s*([a-zA-Z]+)|([a-zA-Z]+)\s*(\d+)%/gi)`: all
non-overlapping matches, scanning left to right.  The fuel is the input
length; every match consumes at least one character, so the fuel never runs
out on the recursion actually reached. -/
def scanPercentAux : Nat → List Char → List (List Char)
  | 0, _ => []
  | _ + 1, [] => []
  | fuel + 1, c :: cs =>
    match matchPercentAt (c :: cs) with
    | some (m, rest) => m :: scanPercentAux fuel rest
    | none => scanPercentAux fuel cs

def scanPercent (l : List Char) : List (List Char) := scanPercentAux l.length l

/-- `m.match(/\d+/g)` restricted to its first element (`numbers[0]`). -/
def firstDigitRun : List Char → Option (List Char)
  | [] => none
  | c :: cs =>
    if c.isDigit then some ((c :: cs).takeWhile Char.isDigit)
    else firstDigitRun cs

/-- `m.match(/[a-zA-Z]+/g)` restricted to its first element (`letters[0]`). -/
def firstLetterRun : List Char → Option (List Char)
  | [] => none
  | c :: cs =>
    if isAsciiLetter c then some ((c :: cs).takeWhile isAsciiLetter)
    else firstLetterRun cs

/-- `s.charAt(0).toUpperCase() + s.slice(1).toLowerCase()`. -/
def capitalizeJS (s : List Char) : List Char :=
  match s with
  | [] => []
  | c :: cs => c.toUpper :: cs.map Char.toLower

structure Material where
  material : List Char
  percentage : Int
deriving DecidableEq, Repr

structure TechPackData where
  materialPercentage : List Material
  fabricType : String
  garmentType : String
  gender : String
  description : List Char
deriving DecidableEq, Repr

inductive AnalysisResult where
  | failure (error : String)
  | success (data : TechPackData)
deriving DecidableEq, Repr

/-- The explicit-percentage extraction loop of `fallbackAnalysis`. -/
def explicitMaterials (text : List Char) : List Material :=
  (scanPercent text).foldl
    (fun acc m =>
      match firstDigitRun m, firstLetterRun m with
      | some ns, some ls => acc ++ [⟨capitalizeJS ls, (digitVal ns : Int)⟩]
      | _, _ => acc)
    []

/-- `materialKeywords`, keys pre-capitalized as the source does with
`material.charAt(0).toUpperCase() + material.slice(1)`; each key is pushed at
most once, so the `[...new Set(...)]` dedup step is the identity. -/
def materialKeywordPairs : List (String × List String) :=
  [("Cotton", ["cotton", "organic cotton", "combed cotton", "ring spun cotton"]),
   ("Polyester", ["polyester", "poly", "pet", "recycled polyester"]),
   ("Elastane", ["elastane", "spandex", "lycra"]),
   ("Nylon", ["nylon", "polyamide", "pa"]),
   ("Viscose", ["viscose", "rayon", "modal", "tencel"]),
   ("Wool", ["wool", "merino", "cashmere", "alpaca"]),
   ("Linen", ["linen", "flax"]),
   ("Silk", ["silk"]),
   ("Acrylic", ["acrylic"]),
   ("Bamboo", ["bamboo"])]

/-- `materials[materials.length - 1].percentage += delta`. -/
def adjustLast (delta : Int) : List Material → List Material
  | [] => []
  | [m] => [{ m with percentage := m.percentage + delta }]
  | m :: ms => m :: adjustLast delta ms

/-- `materials[0].percentage += delta`. -/
def adjustHead (delta : Int) : List Material → List Material
  | [] => []
  | m :: ms => { m with percentage := m.percentage + delta } :: ms

def sumPct (ms : List Material) : Int := (ms.map (·.percentage)).sum

/-- The keyword-inference material block (runs when no explicit percentages
were found). -/
def keywordMaterials (lt : List Char) : List Material :=
  let foundMaterials : List String :=
    materialKeywordPairs.foldl
      (fun acc p => if p.2.any (fun k => inc lt k) then acc ++ [p.1] else acc) []
  match foundMaterials with
  | [] => []
  | [m] => [⟨str2l m, 100⟩]
  | [m₁, m₂] =>
    if foundMaterials.contains "Cotton" && foundMaterials.contains "Elastane" then
      [⟨str2l "Cotton", 95⟩, ⟨str2l "Elastane", 5⟩]
    else if foundMaterials.contains "Cotton" && foundMaterials.contains "Polyester" then
      [⟨str2l "Cotton", 60⟩, ⟨str2l "Polyester", 40⟩]
    else [⟨str2l m₁, 70⟩, ⟨str2l m₂, 30⟩]
  | _ =>
    let mainPercentage : Int := 60
    let secondaryPercentage : Int := (40 : Nat) / (foundMaterials.length - 1)
    let ms := foundMaterials.enum.map fun p =>
      (⟨str2l p.2, if p.1 = 0 then mainPercentage else secondaryPercentage⟩ : Material)
    let total := sumPct ms
    if total ≠ 100 ∧ ms.length > 1 then adjustLast (100 - total) ms else ms

/-- The last-resort defaults; `none` is the `success: false` return. -/
def defaultMaterials (garmentType : String) (fabricType : String) :
    Option (List Material) :=
  if garmentType = "Jeans" then
    some [⟨str2l "Cotton", 98⟩, ⟨str2l "Elastane", 2⟩]
  else if fabricType = "knit" then some [⟨str2l "Cotton", 100⟩]
  else if garmentType ≠ "Shirt" then some [⟨str2l "Cotton", 100⟩]
  else none

/-- `// Ensure percentages sum to 100`. -/
def ensureSum100 (ms : List Material) : List Material :=
  if sumPct ms ≠ 100 ∧ ms.length > 0 then adjustHead (100 - sumPct ms) ms else ms

/-- The garment-type detection chain of `fallbackAnalysis`. -/
def detectGarmentType (lt : List Char) : String :=
  if inc lt "t-shirt" || inc lt "tee" || inc lt "t shirt" then "T-Shirt"
  else if inc lt "jeans" || inc lt "denim" then "Jeans"
  else if inc lt "dress" || inc lt "frock" then "Dress"
  else if inc lt "trouser" || inc lt "pant" || inc lt "slack" then "Trousers"
  else if inc lt "jacket" || inc lt "blazer" || inc lt "coat" then "Jacket"
  else if inc lt "skirt" then "Skirt"
  else if inc lt "blouse" then "Blouse"
  else if inc lt "sweater" || inc lt "pullover" || inc lt "jumper" then "Sweater"
  else if inc lt "cardigan" then "Cardigan"
  else if inc lt "polo" then "Polo Shirt"
  else if inc lt "hoodie" || inc lt "hooded" then "Hoodie"
  else if inc lt "shorts" then "Shorts"
  else if inc lt "vest" || inc lt "waistcoat" then "Vest"
  else if inc lt "shirt" then "Shirt"
  else "Shirt"

def wovenIndicators : List String :=
  ["woven", "weave", "twill", "plain weave", "satin", "denim", "canvas", "poplin",
   "chambray", "flannel", "oxford", "broadcloth", "gabardine", "serge", "drill",
   "duck", "sateen", "crepe", "taffeta", "chiffon", "organza", "voile", "lawn",
   "batiste"]

/-- The fabric-type detection of `fallbackAnalysis`: knit indicators override
the "woven" default, any woven indicator overrides back, and a final
contextual pass flips T-Shirt/Hoodie/Sweater to knit when no woven keyword
appears. -/
def detectFabricType (lt : List Char) (garmentType : String) : String :=
  let f₁ :=
    if inc lt "knit" || inc lt "jersey" || inc lt "rib" || inc lt "interlock" ||
        inc lt "fleece" || inc lt "terry" || inc lt "french terry" || inc lt "loop" ||
        inc lt "pique" || inc lt "waffle" || inc lt "circular knit" ||
        inc lt "flat knit" || inc lt "tricot" then
      "knit"
    else "woven"
  let hasWovenKeywords := wovenIndicators.any (fun k => inc lt k)
  let f₂ := if hasWovenKeywords then "woven" else f₁
  if f₂ = "woven" ∧
      (garmentType = "T-Shirt" ∨ garmentType = "Hoodie" ∨ garmentType = "Sweater") ∧
      ¬ hasWovenKeywords then
    "knit"
  else f₂

/-- The gender detection chain of `fallbackAnalysis` (note that
`includes("men")` also fires on "women": transcribed as in the source). -/
def detectGender (lt : List Char) : String :=
  if inc lt "men" || inc lt "male" || inc lt "gentleman" then "Men's"
  else if inc lt "women" || inc lt "female" || inc lt "ladies" || inc lt "woman" then
    "Women's"
  else if inc lt "kids" || inc lt "children" || inc lt "baby" || inc lt "toddler" ||
      inc lt "infant" then
    "Children's"
  else
    let g :=
      if inc lt "xl" || inc lt "xxl" || inc lt "xxxl" then
        if inc lt "regular fit" || inc lt "relaxed fit" || inc lt "straight fit" then
          "Men's"
        else "Unisex"
      else if inc lt "fitted" || inc lt "slim fit" || inc lt "tapered" then
        if inc lt "xs" || inc lt "petite" then "Women's" else "Unisex"
      else "Unisex"
    if inc lt "maternity" || inc lt "nursing" then "Women's" else g

/-- The fabric-construction phrase used in the generated description. -/
def constructionDetailsOf (lt : List Char) (fabricType : String) : String :=
  if fabricType = "knit" then
    if inc lt "jersey" then "jersey knit construction"
    else if inc lt "rib" then "rib knit construction"
    else if inc lt "interlock" then "interlock knit construction"
    else if inc lt "fleece" then "fleece knit construction"
    else if inc lt "french terry" || inc lt "terry" then "terry knit construction"
    else if inc lt "pique" then "pique knit construction"
    else if inc lt "waffle" then "waffle knit construction"
    else "knit construction"
  else
    if inc lt "denim" then "denim woven construction"
    else if inc lt "twill" then "twill weave construction"
    else if inc lt "canvas" then "canvas weave construction"
    else if inc lt "poplin" then "poplin weave construction"
    else if inc lt "chambray" then "chambray weave construction"
    else if inc lt "flannel" then "flannel weave construction"
    else if inc lt "oxford" then "oxford weave construction"
    else if inc lt "broadcloth" then "broadcloth weave construction"
    else if inc lt "gabardine" then "gabardine weave construction"
    else if inc lt "satin" then "satin weave construction"
    else if inc lt "plain weave" then "plain weave construction"
    else "woven construction"

/-- The weight/stretch/finish characteristics collected for the description. -/
def characteristicsOf (lt : List Char) : List String :=
  let c₁ :=
    if inc lt "lightweight" || inc lt "light weight" then ["lightweight"]
    else if inc lt "heavyweight" || inc lt "heavy weight" then ["heavyweight"]
    else if inc lt "medium weight" then ["medium weight"]
    else []
  let c₂ := c₁ ++ (if inc lt "stretch" then ["stretch"] else [])
  let c₃ := c₂ ++
    (if inc lt "moisture wicking" || inc lt "moisture-wicking" then
      ["moisture-wicking"] else [])
  let c₄ := c₃ ++ (if inc lt "brushed" then ["brushed finish"] else [])
  c₄ ++ (if inc lt "pre-shrunk" || inc lt "preshrunk" then ["pre-shrunk"] else [])

/-- `fallbackAnalysis` (rule-based tech-pack analysis used when the AI call
fails), faithful translation. -/
def fallbackAnalysis (text : List Char) : AnalysisResult :=
  let lt := text.map Char.toLower
  let garmentType := detectGarmentType lt
  let fabricType := detectFabricType lt garmentType
  let gender := detectGender lt
  let materials₀ := explicitMaterials text
  let materials₁ := if materials₀.isEmpty then keywordMaterials lt else materials₀
  match (if materials₁.isEmpty then defaultMaterials garmentType fabricType
    else some materials₁) with
  | none =>
    .failure "No material information could be found or inferred from the tech pack content"
  | some ms =>
    let materials := ensureSum100 ms
    let constructionDetails := constructionDetailsOf lt fabricType
    let characteristics := characteristicsOf lt
    let characteristicsText :=
      if characteristics.length > 0 then
        str2l " with " ++ List.intercalate (str2l ", ") (characteristics.map str2l)
      else []
    .success
      { materialPercentage := materials
        fabricType := fabricType
        garmentType := garmentType
        gender := gender
        description :=
          str2l gender ++ ' ' :: (str2l garmentType).map Char.toLower ++
            ',' :: ' ' :: str2l constructionDetails ++ characteristicsText }

theorem sumPct_adjustHead (δ : Int) (ms : List Material) (h : ms ≠ []) :
    sumPct (adjustHead δ ms) = sumPct ms + δ := by
  cases ms with
  | nil => exact absurd rfl h
  | cons m ms =>
    unfold adjustHead sumPct
    simp
    ring

theorem ensureSum100_sum (ms : List Material) (h : ms ≠ []) :
    sumPct (ensureSum100 ms) = 100 := by
  unfold ensureSum100
  split
  · rename_i hc
    rw [sumPct_adjustHead _ _ h]
    ring
  · rename_i hc
    push_neg at hc
    by_cases h100 : sumPct ms = 100
    · exact h100
    · have := hc h100
      cases ms with
      | nil => exact absurd rfl h
      | cons m ms => simp at this

theorem ensureSum100_ne_nil (ms : List Material) (h : ms ≠ []) :
    ensureSum100 ms ≠ [] := by
  unfold ensureSum100
  split
  · cases ms with
    | nil => exact absurd rfl h
    | cons m ms => simp [adjustHead]
  · exact h

theorem defaultMaterials_ne_nil (g f : String) (ms : List Material)
    (h : defaultMaterials g f = some ms) : ms ≠ [] := by
  unfold defaultMaterials at h
  split at h
  · obtain ⟨rfl⟩ := Option.some.inj h; simp
  · split at h
    · obtain ⟨rfl⟩ := Option.some.inj h; simp
    · split at h
      · obtain ⟨rfl⟩ := Option.some.inj h; simp
      · simp at h

/-- C10: whenever the rule-based fallback tech-pack analysis returns
`success: true`, the returned `materialPercentage` list is non-empty and its
percentage values sum to exactly 100. -/
theorem fallbackAnalysis_success_sum (text : List Char) (d : TechPackData)
    (h : fallbackAnalysis text = .success d) :
    d.materialPercentage ≠ [] ∧ sumPct d.materialPercentage = 100 := by
  unfold fallbackAnalysis at h
  dsimp only [] at h
  split at h
  · exact absurd h (by simp)
  · rename_i ms heq
    obtain ⟨rfl⟩ := AnalysisResult.success.inj h
    have hne : ms ≠ [] := by
      split at heq
      all_goals try split at heq
      all_goals
        first
          | exact defaultMaterials_ne_nil _ _ _ heq
          | (rename_i hful
             obtain ⟨rfl⟩ := Option.some.inj heq
             simpa using hful)
    exact ⟨ensureSum100_ne_nil ms hne, ensureSum100_sum ms hne⟩

theorem fallbackAnalysis_success_sum_witness :
    fallbackAnalysis (str2l "50% cotton woven fabric") =
        .success
          { materialPercentage := [⟨str2l "Cotton", 100⟩]
            fabricType := "woven"
            garmentType := "Shirt"
            gender := "Unisex"
            description := str2l "Unisex shirt, woven construction" } ∧
      ([(⟨str2l "Cotton", 100⟩ : Material)] ≠ [] ∧
        sumPct [(⟨str2l "Cotton", 100⟩ : Material)] = 100) := by
  constructor
  · decide
  · exact fallbackAnalysis_success_sum (str2l "50% cotton woven fabric")
      { materialPercentage := [⟨str2l "Cotton", 100⟩]
        fabricType := "woven"
        garmentType := "Shirt"
        gender := "Unisex"
        description := str2l "Unisex shirt, woven construction" } (by decide)

/-! ### C7: round-tripping a synthetically constructed row line -/

/-- Join rate tokens with single spaces (`"r1 r2 ... r7"`). -/
def joinSp : List (List Char) → List Char
  | [] => []
  | [r] => r
  | r :: r' :: rs => r ++ ' ' :: joinSp (r' :: rs)

/-- The synthetically constructed row line `"hsCode description r1 ... r7"`
of the round-trip claim. -/
def mkRowLine (hs desc : List Char) (rs : List (List Char)) : List Char :=
  hs ++ ' ' :: desc ++ ' ' :: joinSp rs

theorem splitWsGo_token (tok : List Char) (hf : ∀ c ∈ tok, jsWs c = false) :
    ∀ rest acc, splitWsGo (tok ++ rest) acc = splitWsGo rest (tok.reverse ++ acc) := by
  induction tok with
  | nil => intro rest acc; simp
  | cons c cs ih =>
    intro rest acc
    have hc : jsWs c = false := hf c (List.mem_cons_self _ _)
    rw [List.cons_append]
    show (if jsWs c then acc.reverse :: splitWsSkip (cs ++ rest)
        else splitWsGo (cs ++ rest) (c :: acc)) = _
    rw [if_neg (by simp [hc])]
    rw [ih (fun x hx => hf x (List.mem_cons_of_mem _ hx)) rest (c :: acc)]
    simp

theorem splitWsSkip_joinSp (rs : List (List Char))
    (h1 : ∀ r ∈ rs, r ≠ []) (h2 : ∀ r ∈ rs, ∀ c ∈ r, jsWs c = false) :
    rs ≠ [] → splitWsSkip (joinSp rs) = rs := by
  induction rs with
  | nil => intro h; exact absurd rfl h
  | cons r rs ih =>
    intro _
    obtain ⟨c, cs, rfl⟩ := List.exists_cons_of_ne_nil (h1 r (List.mem_cons_self _ _))
    have hcw : jsWs c = false := h2 _ (List.mem_cons_self _ _) c (List.mem_cons_self _ _)
    have hcsw : ∀ x ∈ cs, jsWs x = false :=
      fun x hx => h2 _ (List.mem_cons_self _ _) x (List.mem_cons_of_mem _ hx)
    cases rs with
    | nil =>
      show splitWsSkip (c :: cs) = [c :: cs]
      show (if jsWs c then splitWsSkip cs else splitWsGo cs [c]) = [c :: cs]
      rw [if_neg (by simp [hcw])]
      have h := splitWsGo_token cs hcsw [] [c]
      rw [List.append_nil] at h
      rw [h]
      show [(cs.reverse ++ [c]).reverse] = [c :: cs]
      simp
    | cons r' rs' =>
      show splitWsSkip ((c :: cs) ++ ' ' :: joinSp (r' :: rs')) = (c :: cs) :: r' :: rs'
      rw [List.cons_append]
      show (if jsWs c then splitWsSkip (cs ++ ' ' :: joinSp (r' :: rs'))
          else splitWsGo (cs ++ ' ' :: joinSp (r' :: rs')) [c]) = _
      rw [if_neg (by simp [hcw])]
      rw [splitWsGo_token cs hcsw (' ' :: joinSp (r' :: rs')) [c]]
      show (cs.reverse ++ [c]).reverse :: splitWsSkip (joinSp (r' :: rs')) = _
      rw [ih (fun x hx => h1 x (List.mem_cons_of_mem _ hx))
        (fun x hx => h2 x (List.mem_cons_of_mem _ hx)) (by simp)]
      simp

theorem splitWs_desc_part (J : List Char) (tl : List (List Char))
    (hJ : splitWsSkip J = tl) (desc : List Char) :
    (∀ acc, ∃ ds, splitWsGo (desc ++ ' ' :: J) acc = ds ++ tl) ∧
      (∃ ds, splitWsSkip (desc ++ ' ' :: J) = ds ++ tl) := by
  induction desc with
  | nil =>
    constructor
    · intro acc
      refine ⟨[acc.reverse], ?_⟩
      show (if jsWs ' ' then acc.reverse :: splitWsSkip J else splitWsGo J (' ' :: acc)) = _
      rw [if_pos (by decide), hJ]
      rfl
    · refine ⟨[], ?_⟩
      show (if jsWs ' ' then splitWsSkip J else splitWsGo J [' ']) = _
      rw [if_pos (by decide), hJ]
      rfl
  | cons c d ih =>
    constructor
    · intro acc
      rw [List.cons_append]
      by_cases hc : jsWs c = true
      · obtain ⟨ds, hds⟩ := ih.2
        refine ⟨acc.reverse :: ds, ?_⟩
        show (if jsWs c then acc.reverse :: splitWsSkip (d ++ ' ' :: J)
            else splitWsGo (d ++ ' ' :: J) (c :: acc)) = _
        rw [if_pos hc, hds]
        rfl
      · obtain ⟨ds, hds⟩ := ih.1 (c :: acc)
        refine ⟨ds, ?_⟩
        show (if jsWs c then acc.reverse :: splitWsSkip (d ++ ' ' :: J)
            else splitWsGo (d ++ ' ' :: J) (c :: acc)) = _
        rw [if_neg hc, hds]
    · rw [List.cons_append]
      by_cases hc : jsWs c = true
      · obtain ⟨ds, hds⟩ := ih.2
        refine ⟨ds, ?_⟩
        show (if jsWs c then splitWsSkip (d ++ ' ' :: J)
            else splitWsGo (d ++ ' ' :: J) [c]) = _
        rw [if_pos hc, hds]
      · obtain ⟨ds, hds⟩ := ih.1 [c]
        refine ⟨ds, ?_⟩
        show (if jsWs c then splitWsSkip (d ++ ' ' :: J)
            else splitWsGo (d ++ ' ' :: J) [c]) = _
        rw [if_neg hc, hds]

theorem splitWs_mkRowLine (hs desc : List Char) (rs : List (List Char))
    (hhsf : ∀ c ∈ hs, jsWs c = false)
    (h1 : ∀ r ∈ rs, r ≠ []) (h2 : ∀ r ∈ rs, ∀ c ∈ r, jsWs c = false)
    (hrs : rs ≠ []) :
    ∃ ds, splitWs (mkRowLine hs desc rs) = hs :: (ds ++ rs) := by
  obtain ⟨ds, hds⟩ :=
    (splitWs_desc_part (joinSp rs) rs (splitWsSkip_joinSp rs h1 h2 hrs) desc).2
  refine ⟨ds, ?_⟩
  show splitWsGo (hs ++ ' ' :: desc ++ ' ' :: joinSp rs) [] = _
  rw [List.append_assoc, List.cons_append]
  rw [splitWsGo_token hs hhsf (' ' :: (desc ++ ' ' :: joinSp rs)) [], List.append_nil]
  show (if jsWs ' ' then hs.reverse.reverse :: splitWsSkip (desc ++ ' ' :: joinSp rs)
      else splitWsGo (desc ++ ' ' :: joinSp rs) (' ' :: hs.reverse)) = hs :: (ds ++ rs)
  rw [if_pos (by decide), hds]
  simp

theorem dropWhile_all_append (p : Char → Bool) (w : List Char)
    (hw : ∀ c ∈ w, p c = true) (x : List Char) :
    (w ++ x).dropWhile p = x.dropWhile p := by
  induction w with
  | nil => rfl
  | cons c cs ih =>
    rw [List.cons_append, List.dropWhile_cons, if_pos (hw c (List.mem_cons_self _ _))]
    exact ih (fun a ha => hw a (List.mem_cons_of_mem _ ha))

theorem takeWhile_append_stop (p : Char → Bool) (l : List Char)
    (hl : ∀ c ∈ l, p c = true) (d : Char) (hd : p d = false) (rest : List Char) :
    (l ++ d :: rest).takeWhile p = l := by
  induction l with
  | nil => simp [List.takeWhile_cons, hd]
  | cons c cs ih =>
    rw [List.cons_append, List.takeWhile_cons, if_pos (hl c (List.mem_cons_self _ _))]
    rw [ih (fun a ha => hl a (List.mem_cons_of_mem _ ha))]

theorem dropWhile_head_false (p : Char → Bool) (l : List Char) (x : Char)
    (xs : List Char) (h : l.dropWhile p = x :: xs) : p x = false := by
  induction l with
  | nil => simp [List.dropWhile] at h
  | cons c cs ih =>
    rw [List.dropWhile_cons] at h
    by_cases hc : p c = true
    · rw [if_pos hc] at h; exact ih h
    · rw [if_neg hc] at h
      obtain ⟨rfl, -⟩ := List.cons.inj h
      simpa using hc

/-- `numScanAt` is false at a position holding a non-whitespace character. -/
theorem numScanAt_cons_not_ws (c : Char) (cs : List Char) (hc : jsWs c = false) :
    numScanAt (c :: cs) = false := by
  unfold numScanAt
  dsimp only []
  rw [hc]
  rfl

/-- `numScanAt` is true at a whitespace followed (after more whitespace) by a
nonempty digit run followed by a whitespace. -/
theorem numScanAt_sep (w r tail : List Char) (hw : ∀ c ∈ w, jsWs c = true)
    (hne : r ≠ []) (hdig : ∀ c ∈ r, c.isDigit = true) :
    numScanAt (' ' :: (w ++ (r ++ ' ' :: tail))) = true := by
  obtain ⟨c, cs, rfl⟩ := List.exists_cons_of_ne_nil hne
  have hcd : c.isDigit = true := hdig c (List.mem_cons_self _ _)
  have hcw : jsWs c = false := isDigit_not_jsWs hcd
  unfold numScanAt
  dsimp only []
  rw [dropWhile_all_append jsWs w hw]
  rw [List.cons_append, List.dropWhile_cons, if_neg (by simp [hcw]), ← List.cons_append]
  rw [takeWhile_append_stop Char.isDigit (c :: cs) hdig ' ' (by decide) tail]
  rw [List.drop_left]
  rfl

theorem searchNumAux_token (tok : List Char) (hf : ∀ c ∈ tok, jsWs c = false) :
    ∀ rest i, searchNumAux (tok ++ rest) i = searchNumAux rest (i + tok.length) := by
  induction tok with
  | nil => intro rest i; simp
  | cons c cs ih =>
    intro rest i
    rw [List.cons_append]
    show (if numScanAt (c :: (cs ++ rest)) then some i
        else searchNumAux (cs ++ rest) (i + 1)) = _
    rw [numScanAt_cons_not_ws c _ (hf c (List.mem_cons_self _ _))]
    rw [if_neg (by simp)]
    rw [ih (fun a ha => hf a (List.mem_cons_of_mem _ ha)) rest (i + 1)]
    congr 1
    simp
    omega

theorem dropWhile_eq_self_head (p : Char → Bool) (c : Char) (cs : List Char)
    (h : (c :: cs).dropWhile p = c :: cs) : p c = false := by
  rw [List.dropWhile_cons] at h
  by_cases hc : p c = true
  · rw [if_pos hc] at h
    have hle : (cs.dropWhile p).length ≤ cs.length :=
      (List.dropWhile_suffix p).sublist.length_le
    rw [h] at hle
    simp at hle
  · simpa using hc

/-- A list whose reverse is untouched by a leading-whitespace strip has no
fully-whitespace nonempty suffix. -/
theorem suffix_dropWhile_ne_nil (l : List Char)
    (hrev : l.reverse.dropWhile jsWs = l.reverse) :
    ∀ s : List Char, (∃ p, p ++ s = l) → s ≠ [] → s.dropWhile jsWs ≠ [] := by
  rintro s ⟨p, hp⟩ hne hcon
  have hall : ∀ c ∈ s, jsWs c = true := List.dropWhile_eq_nil_iff.mp hcon
  have hsr : s.reverse ≠ [] := by simpa using hne
  obtain ⟨x, xs, hx⟩ := List.exists_cons_of_ne_nil hsr
  have hlr : l.reverse = x :: (xs ++ p.reverse) := by
    rw [← hp, List.reverse_append, hx, List.cons_append]
  rw [hlr] at hrev
  have hxw : jsWs x = false := dropWhile_eq_self_head jsWs x _ hrev
  have hxs : x ∈ s := by
    rw [← List.mem_reverse, hx]
    exact List.mem_cons_self _ _
  rw [hall x hxs] at hxw
  exact Bool.true_eq_false ▸ hxw

/-- A string equal to its own trim is untouched by both whitespace strips. -/
theorem trim_eq_self_parts (l : List Char) (ht : trimJS l = l) :
    l.dropWhile jsWs = l ∧ l.reverse.dropWhile jsWs = l.reverse := by
  unfold trimJS at ht
  have hlen : (((l.dropWhile jsWs).reverse.dropWhile jsWs)).length = l.length := by
    have := congrArg List.length ht
    simpa using this
  have h2 : ((l.dropWhile jsWs).reverse.dropWhile jsWs).length
      ≤ (l.dropWhile jsWs).reverse.length :=
    (List.dropWhile_suffix jsWs).sublist.length_le
  have h1 : (l.dropWhile jsWs).length ≤ l.length :=
    (List.dropWhile_suffix jsWs).sublist.length_le
  have e1 : l.dropWhile jsWs = l := by
    refine (List.dropWhile_suffix jsWs).sublist.eq_of_length ?_
    rw [List.length_reverse] at h2
    omega
  rw [e1] at ht
  refine ⟨e1, ?_⟩
  have := congrArg List.reverse ht
  simpa using this

/-- Walking `searchNumAux` through a digit-free stretch with no whitespace-only
nonempty suffix: the first regex match is right after the stretch. -/
theorem searchNumAux_desc (J : List Char) (hJt : numScanAt (' ' :: J) = true) :
    ∀ d : List Char, (∀ c ∈ d, c.isDigit = false) →
      (∀ s : List Char, (∃ p, p ++ s = d) → s ≠ [] → s.dropWhile jsWs ≠ []) →
      ∀ i, searchNumAux (d ++ ' ' :: J) i = some (i + d.length) := by
  intro d
  induction d with
  | nil =>
    intro _ _ i
    show (if numScanAt (' ' :: J) then some i else searchNumAux J (i + 1)) = _
    rw [if_pos (by simp [hJt])]
    simp
  | cons c d ih =>
    intro hdig hsuf i
    rw [List.cons_append]
    show (if numScanAt (c :: (d ++ ' ' :: J)) then some i
        else searchNumAux (d ++ ' ' :: J) (i + 1)) = _
    have hrec := ih (fun a ha => hdig a (List.mem_cons_of_mem _ ha))
      (fun s hs hne => hsuf s (by obtain ⟨p, hp⟩ := hs; exact ⟨c :: p, by rw [List.cons_append, hp]⟩) hne)
      (i + 1)
    have hscan : numScanAt (c :: (d ++ ' ' :: J)) = false := by
      by_cases hc : jsWs c = true
      · -- whole-list suffix of c :: d gives a non-whitespace character in d
        have hdw : d.dropWhile jsWs ≠ [] := by
          have h := hsuf (c :: d) ⟨[], rfl⟩ (by simp)
          rw [List.dropWhile_cons, if_pos hc] at h
          exact h
        obtain ⟨x, xs, hx⟩ := List.exists_cons_of_ne_nil hdw
        have hxw : jsWs x = false := dropWhile_head_false jsWs d x xs hx
        have hxd : x.isDigit = false := by
          refine hdig x (List.mem_cons_of_mem _ ?_)
          exact (List.dropWhile_suffix jsWs).sublist.subset (hx ▸ List.mem_cons_self _ _)
        unfold numScanAt
        dsimp only []
        rw [List.dropWhile_append]
        rw [hx]
        simp only [List.isEmpty_cons, Bool.false_eq_true, if_false, List.cons_append]
        rw [List.takeWhile_cons, hxd]
        simp
      · exact numScanAt_cons_not_ws c _ (by simpa using hc)
    rw [if_neg (by simp [hscan]), hrec]
    congr 1
    simp
    omega

/-- Position of the first `/\s+\d+\s/` match on a synthetic row line: the
space right before the first rate token (or the space after the code when the
description is empty). -/
theorem jsSearchNum_mkRowLine (hs desc r0 tail : List Char)
    (hhsf : ∀ c ∈ hs, jsWs c = false)
    (hdh : desc.dropWhile jsWs = desc)
    (hdr : desc.reverse.dropWhile jsWs = desc.reverse)
    (hdescd : ∀ c ∈ desc, c.isDigit = false)
    (hr0 : r0 ≠ []) (hr0d : ∀ c ∈ r0, c.isDigit = true) :
    jsSearchNum (hs ++ ' ' :: desc ++ ' ' :: (r0 ++ ' ' :: tail)) =
      some (if desc = [] then hs.length else hs.length + 1 + desc.length) := by
  unfold jsSearchNum
  rw [List.append_assoc, List.cons_append]
  rw [searchNumAux_token hs hhsf _ 0]
  by_cases hde : desc = []
  · subst hde
    rw [if_pos rfl]
    show (if numScanAt (' ' :: ([' '] ++ (r0 ++ ' ' :: tail))) then some (0 + hs.length)
        else searchNumAux ([] ++ ' ' :: (r0 ++ ' ' :: tail)) (0 + hs.length + 1)) = _
    rw [if_pos ?pos]
    · congr 1
      omega
    case pos =>
      have hmem : ∀ a ∈ [' '], jsWs a = true := by
        intro a ha
        rw [List.mem_singleton] at ha
        subst ha
        decide
      have h := numScanAt_sep [' '] r0 tail hmem hr0 hr0d
      simpa using h
  · rw [if_neg hde]
    obtain ⟨c, cs, rfl⟩ := List.exists_cons_of_ne_nil hde
    have hcw : jsWs c = false := dropWhile_eq_self_head jsWs c cs hdh
    have hJt : numScanAt (' ' :: (r0 ++ ' ' :: tail)) = true := by
      simpa using numScanAt_sep [] r0 tail (by simp) hr0 hr0d
    have hwalk := searchNumAux_desc (r0 ++ ' ' :: tail) hJt (' ' :: c :: cs)
      (by
        intro a ha
        rcases List.mem_cons.mp ha with rfl | ha'
        · decide
        · exact hdescd a ha')
      (by
        rintro s ⟨p, hp⟩ hne
        cases p with
        | nil =>
          simp only [List.nil_append] at hp
          subst hp
          rw [List.dropWhile_cons, if_pos (by decide), hdh]
          simp
        | cons a p' =>
          rw [List.cons_append] at hp
          obtain ⟨-, hp'⟩ := List.cons.inj hp
          exact suffix_dropWhile_ne_nil (c :: cs) hdr s ⟨p', hp'⟩ hne)
      (0 + hs.length)
    rw [show (' ' :: c :: cs) ++ ' ' :: (r0 ++ ' ' :: tail)
        = ' ' :: ((c :: cs) ++ ' ' :: (r0 ++ ' ' :: tail)) from rfl] at hwalk
    rw [hwalk]
    congr 1
    simp
    omega

theorem isPrefixOf_append_self (l r : List Char) : l.isPrefixOf (l ++ r) = true := by
  induction l with
  | nil => simp [List.isPrefixOf]
  | cons c cs ih => simpa [List.isPrefixOf] using ih

theorem idxOfAux_self (c : Char) (hs' rest : List Char) :
    idxOfAux (c :: hs') ((c :: hs') ++ rest) 0 = some 0 := by
  rw [List.cons_append]
  show (if (c :: hs').isPrefixOf (c :: (hs' ++ rest)) then some 0
      else idxOfAux (c :: hs') (hs' ++ rest) 1) = some 0
  rw [if_pos (by rw [← List.cons_append]; simp [isPrefixOf_append_self])]

theorem substring_desc_nonempty (hs desc tail : List Char) (hdesc : trimJS desc = desc) :
    trimJS (jsSubstring (hs ++ ' ' :: desc ++ ' ' :: tail) (hs.length + 1)
        (hs.length + 1 + desc.length)) = desc := by
  have hsplit : hs ++ ' ' :: desc ++ ' ' :: tail = (hs ++ [' ']) ++ (desc ++ ' ' :: tail) := by
    simp
  have hlen : (hs ++ ' ' :: desc ++ ' ' :: tail).length
      = hs.length + 1 + desc.length + (1 + tail.length) := by
    simp
    omega
  unfold jsSubstring
  dsimp only []
  rw [hlen]
  rw [min_eq_left (by omega), min_eq_left (by omega)]
  rw [min_eq_left (by omega), max_eq_right (by omega)]
  rw [Nat.add_sub_cancel_left]
  rw [hsplit]
  rw [show hs.length + 1 = (hs ++ [' ']).length by simp]
  rw [List.drop_left]
  rw [List.take_left]
  exact hdesc

theorem substring_desc_empty (hs tail : List Char) :
    trimJS (jsSubstring (hs ++ ' ' :: [] ++ ' ' :: tail) (hs.length + 1) hs.length) = [] := by
  have hlen : (hs ++ ' ' :: [] ++ ' ' :: tail).length = hs.length + (2 + tail.length) := by
    simp
    omega
  unfold jsSubstring
  dsimp only []
  rw [hlen]
  rw [min_eq_left (by omega), min_eq_left (by omega)]
  rw [min_eq_right (by omega), max_eq_left (by omega)]
  rw [show hs.length + 1 - hs.length = 1 by omega]
  rw [show hs ++ ' ' :: [] ++ ' ' :: tail = hs ++ (' ' :: ' ' :: tail) by simp]
  rw [List.drop_left]
  rfl

theorem isHs8_facts {hs : List Char} (h : isHs8 hs = true) :
    hs.length = 8 ∧ ∀ c ∈ hs, c.isDigit = true := by
  unfold isHs8 at h
  rw [Bool.and_eq_true, beq_iff_eq, List.all_eq_true] at h
  exact ⟨h.1, fun c hc => h.2 c hc⟩

/-- `parseFloat` of a pure digit string is its numeric value. -/
theorem jsParseFloat_digits (l : List Char) (hne : l ≠ [])
    (hd : ∀ c ∈ l, c.isDigit = true) : jsParseFloat l = some (mkRat (digitVal l) 1) := by
  obtain ⟨c, cs, rfl⟩ := List.exists_cons_of_ne_nil hne
  have hc : c.isDigit = true := hd c (List.mem_cons_self _ _)
  have hcw : jsWs c = false := isDigit_not_jsWs hc
  have hdrop : (c :: cs).dropWhile jsWs = c :: cs := by
    rw [List.dropWhile_cons, if_neg (by simp [hcw])]
  have htake : (c :: cs).takeWhile Char.isDigit = c :: cs :=
    List.takeWhile_eq_self_iff.mpr hd
  have hcm : c ≠ '-' := by
    intro h
    subst h
    simp [Char.isDigit] at hc
  have hcp : c ≠ '+' := by
    intro h
    subst h
    simp [Char.isDigit] at hc
  unfold jsParseFloat
  dsimp only []
  rw [hdrop]
  rw [List.headD_cons]
  rw [if_neg (show ¬(c = '-' ∨ c = '+') from by simp [hcm, hcp])]
  rw [htake]
  rw [List.drop_length]
  rw [if_neg (show ¬(([] : List Char).headD ' ' = '.') from by decide)]
  rw [if_neg (show ¬(([] : List Char).headD ' ' = '.') from by decide)]
  rw [if_neg hcm]
  rw [if_neg (show ¬(((c :: cs).isEmpty && ([] : List Char).isEmpty) = true) from by simp)]
  rw [if_neg (show ¬(([] : List Char).headD ' ' = 'e' ∨ ([] : List Char).headD ' ' = 'E')
    from by decide)]
  rw [if_pos (show (0 : Int) ≤ 0 from by decide)]
  congr 1
  simp [digitVal]

/-- `validateRate` is the identity on in-range whole-number rates. -/
theorem validateRate_whole (n : Nat) (hb : n ≤ 99999) :
    validateRate (some ((n : ℚ))) = (n : ℚ) := by
  unfold validateRate jsOr0
  dsimp only []
  rw [Option.getD_some]
  rw [max_eq_left (by positivity)]
  rw [min_eq_left ?le]
  case le =>
    rw [mkRat_bound_eq]
    calc ((n : ℚ)) ≤ (99999 : ℚ) := by exact_mod_cast hb
      _ ≤ 99999999 / 1000 := by norm_num

/-- C7 (amended): for every 8-digit code, every trimmed digit-free description,
and every 7-tuple of nonempty all-digit in-range rate tokens, parsing the
synthetically constructed row line `"hsCode description r1 ... r7"` returns a
`TariffRow` whose `hsCode`, `description` and seven rate fields equal the
original values.  (Unrestricted descriptions do not round-trip: see the
counterexample.) -/
theorem parseTariffRow_roundTrip
    (hs desc r0 r1 r2 r3 r4 r5 r6 : List Char)
    (hhs : isHs8 hs = true)
    (hdesc : trimJS desc = desc)
    (hdescd : ∀ c ∈ desc, c.isDigit = false)
    (hne : ∀ r ∈ [r0, r1, r2, r3, r4, r5, r6], r ≠ [])
    (hdig : ∀ r ∈ [r0, r1, r2, r3, r4, r5, r6], ∀ c ∈ r, c.isDigit = true)
    (hbound : ∀ r ∈ [r0, r1, r2, r3, r4, r5, r6], digitVal r ≤ 99999) :
    parseTariffRow (mkRowLine hs desc [r0, r1, r2, r3, r4, r5, r6]) =
      some { hsCode := hs, description := desc,
             cd := (digitVal r0 : ℚ), sd := (digitVal r1 : ℚ), vat := (digitVal r2 : ℚ),
             ait := (digitVal r3 : ℚ), rd := (digitVal r4 : ℚ), at' := (digitVal r5 : ℚ),
             tti := (digitVal r6 : ℚ) } := by
  obtain ⟨hlen8, hdig8⟩ := isHs8_facts hhs
  have hhsf : ∀ c ∈ hs, jsWs c = false := fun c hc => isDigit_not_jsWs (hdig8 c hc)
  have hrsw : ∀ r ∈ [r0, r1, r2, r3, r4, r5, r6], ∀ c ∈ r, jsWs c = false :=
    fun r hr c hc => isDigit_not_jsWs (hdig r hr c hc)
  obtain ⟨ds, hsp⟩ :=
    splitWs_mkRowLine hs desc [r0, r1, r2, r3, r4, r5, r6] hhsf hne hrsw (by simp)
  obtain ⟨hdh, hdr⟩ := trim_eq_self_parts desc hdesc
  have hline : mkRowLine hs desc [r0, r1, r2, r3, r4, r5, r6]
      = hs ++ ' ' :: desc ++ ' ' :: (r0 ++ ' ' :: joinSp [r1, r2, r3, r4, r5, r6]) := rfl
  have hsearch := jsSearchNum_mkRowLine hs desc r0 (joinSp [r1, r2, r3, r4, r5, r6])
    hhsf hdh hdr hdescd (hne r0 (by simp)) (fun c hc => hdig r0 (by simp) c hc)
  have hhsne : hs ≠ [] := by
    intro h
    rw [h] at hlen8
    simp at hlen8
  have hidx : idxOfAux hs
      (hs ++ ' ' :: desc ++ ' ' :: (r0 ++ ' ' :: joinSp [r1, r2, r3, r4, r5, r6])) 0
      = some 0 := by
    rw [List.append_assoc]
    obtain ⟨c, hs', rfl⟩ := List.exists_cons_of_ne_nil hhsne
    exact idxOfAux_self c hs' _
  rw [hline] at hsp
  have hq : ∀ r, r ∈ [r0, r1, r2, r3, r4, r5, r6] →
      jsOr0 (jsParseFloat r) = ((digitVal r : ℚ)) := by
    intro r hr
    rw [jsParseFloat_digits r (hne r hr) (hdig r hr)]
    unfold jsOr0
    rw [Option.getD_some, Rat.mkRat_one]
    push_cast
    rfl
  rw [hline]
  unfold parseTariffRow
  dsimp only []
  rw [hsp]
  rw [if_neg (show ¬((hs :: (ds ++ [r0, r1, r2, r3, r4, r5, r6])).length < 3) from by
    simp only [List.length_cons, List.length_append, List.length_nil]
    omega)]
  rw [List.headD_cons]
  rw [hhs, Bool.not_true]
  rw [if_neg (show ¬(false = true) from by simp)]
  rw [hidx, Option.getD_some, hsearch]
  dsimp only []
  have hlen7 : (hs :: (ds ++ [r0, r1, r2, r3, r4, r5, r6])).length - 7 = (hs :: ds).length := by
    simp only [List.length_cons, List.length_append, List.length_nil]
    omega
  rw [hlen7]
  rw [show hs :: (ds ++ [r0, r1, r2, r3, r4, r5, r6])
      = (hs :: ds) ++ [r0, r1, r2, r3, r4, r5, r6] from rfl]
  rw [List.drop_left]
  simp only [List.map_cons, List.map_nil]
  rw [hq r0 (by simp), hq r1 (by simp), hq r2 (by simp), hq r3 (by simp),
    hq r4 (by simp), hq r5 (by simp), hq r6 (by simp)]
  rw [show (([((digitVal r0 : ℚ)), ((digitVal r1 : ℚ)), ((digitVal r2 : ℚ)),
      ((digitVal r3 : ℚ)), ((digitVal r4 : ℚ)), ((digitVal r5 : ℚ)),
      ((digitVal r6 : ℚ))]).any (fun r => decide (0 ≤ r))) = true from by
    simp only [List.any_cons, Bool.or_eq_true, decide_eq_true_eq]
    exact Or.inl (by positivity)]
  rw [Bool.not_true]
  rw [if_neg (show ¬(false = true) from by simp)]
  rw [Nat.zero_add]
  by_cases hde : desc = []
  · subst hde
    rw [if_pos rfl]
    rw [substring_desc_empty hs (r0 ++ ' ' :: joinSp [r1, r2, r3, r4, r5, r6])]
    dsimp only [List.get?]
    rw [validateRate_whole (digitVal r0) (hbound r0 (by simp)),
      validateRate_whole (digitVal r1) (hbound r1 (by simp)),
      validateRate_whole (digitVal r2) (hbound r2 (by simp)),
      validateRate_whole (digitVal r3) (hbound r3 (by simp)),
      validateRate_whole (digitVal r4) (hbound r4 (by simp)),
      validateRate_whole (digitVal r5) (hbound r5 (by simp)),
      validateRate_whole (digitVal r6) (hbound r6 (by simp))]
  · rw [if_neg hde]
    rw [substring_desc_nonempty hs desc (r0 ++ ' ' :: joinSp [r1, r2, r3, r4, r5, r6]) hdesc]
    dsimp only [List.get?]
    rw [validateRate_whole (digitVal r0) (hbound r0 (by simp)),
      validateRate_whole (digitVal r1) (hbound r1 (by simp)),
      validateRate_whole (digitVal r2) (hbound r2 (by simp)),
      validateRate_whole (digitVal r3) (hbound r3 (by simp)),
      validateRate_whole (digitVal r4) (hbound r4 (by simp)),
      validateRate_whole (digitVal r5) (hbound r5 (by simp)),
      validateRate_whole (digitVal r6) (hbound r6 (by simp))]

theorem parseTariffRow_roundTrip_witness :
    parseTariffRow (mkRowLine (str2l "01012100") (str2l "Live horses")
        [str2l "5", str2l "10", str2l "0", str2l "0", str2l "5", str2l "0", str2l "15"]) =
      some { hsCode := str2l "01012100", description := str2l "Live horses",
             cd := (digitVal (str2l "5") : ℚ), sd := (digitVal (str2l "10") : ℚ),
             vat := (digitVal (str2l "0") : ℚ), ait := (digitVal (str2l "0") : ℚ),
             rd := (digitVal (str2l "5") : ℚ), at' := (digitVal (str2l "0") : ℚ),
             tti := (digitVal (str2l "15") : ℚ) } :=
  parseTariffRow_roundTrip (str2l "01012100") (str2l "Live horses")
    (str2l "5") (str2l "10") (str2l "0") (str2l "0") (str2l "5") (str2l "0") (str2l "15")
    (by decide) (by decide) (by decide) (by decide) (by decide) (by decide)

/-- C7 counterexample: a description whose first token is a digit run is not
round-tripped.  On `"01012100 100 cotton 5 0 0 5 0 0 10"` the regex
`/\s+\d+\s/` already matches at the space before `"100"`, so the recovered
description is `""`, not `"100 cotton"`. -/
theorem parseTariffRow_roundTrip_cx :
    (parseTariffRow (str2l "01012100 100 cotton 5 0 0 5 0 0 10")).map
        TariffRow.description = some [] ∧
      ([] : List Char) ≠ str2l "100 cotton" := by
  constructor
  · rfl
  · decide

/-! ### C8: `smartChunkText` (pdfProcessor.js lines 689–798) -/

/-- Case-insensitive prefix test (the `/i` flag on the split regexes). -/
def isCIPrefixOf : List Char → List Char → Bool
  | [], _ => true
  | _ :: _, [] => false
  | a :: as, b :: bs => (a.toLower == b.toLower) && isCIPrefixOf as bs

def isRomanCI (c : Char) : Bool := (str2l "IVXLCDMivxlcdm").contains c

/-- Does `/\n\s*(?:Section|SECTION)\s+[IVXLCDM]+/i` match at the head of `l`?
(The character classes involved are mutually disjoint, so the greedy scan is
deterministic.) -/
def matchSectionAt : List Char → Bool
  | '\n' :: rest =>
    let r1 := rest.dropWhile jsWs
    isCIPrefixOf (str2l "section") r1 &&
      (match r1.drop 7 with
       | c :: cs =>
         jsWs c &&
           (match (c :: cs).dropWhile jsWs with
            | d :: _ => isRomanCI d
            | [] => false)
       | [] => false)
  | _ => false

/-- Does `/\n\s*Chapter\s+\d+/i` match at the head of `l`? -/
def matchChapterAt : List Char → Bool
  | '\n' :: rest =>
    let r1 := rest.dropWhile jsWs
    isCIPrefixOf (str2l "chapter") r1 &&
      (match r1.drop 7 with
       | c :: cs =>
         jsWs c &&
           (match (c :: cs).dropWhile jsWs with
            | d :: _ => d.isDigit
            | [] => false)
       | [] => false)
  | _ => false

/-- Does `/\n\s*\d{2}\.\d{2}/` match at the head of `l`? -/
def matchHeadingAt : List Char → Bool
  | '\n' :: rest =>
    (match rest.dropWhile jsWs with
     | d1 :: d2 :: '.' :: d3 :: d4 :: _ =>
       d1.isDigit && d2.isDigit && d3.isDigit && d4.isDigit
     | _ => false)
  | _ => false

/-- `String.prototype.split` on a zero-width lookahead regex: the string is
cut before every position where `m` fires, except that no empty piece is ever
produced (a match at the start of the current piece does not cut). -/
def splitLA (m : List Char → Bool) : List Char → List Char → List (List Char)
  | [], acc => [acc.reverse]
  | c :: cs, acc =>
    if m (c :: cs) && !acc.isEmpty then acc.reverse :: splitLA m cs [c]
    else splitLA m cs (c :: acc)

/-- `String.prototype.split("\n\n")` (separators removed). -/
def splitNN : List Char → List Char → List (List Char)
  | [], acc => [acc.reverse]
  | [c], acc => [(c :: acc).reverse]
  | c :: c' :: cs, acc =>
    if c = '\n' ∧ c' = '\n' then acc.reverse :: splitNN cs []
    else splitNN (c' :: cs) (c :: acc)

/-- `String.prototype.split(" ")` (separators removed). -/
def splitSp : List Char → List Char → List (List Char)
  | [], acc => [acc.reverse]
  | c :: cs, acc =>
    if c = ' ' then acc.reverse :: splitSp cs []
    else splitSp cs (c :: acc)

/-- Innermost loop of `smartChunkText`: force-split an oversized paragraph by
words.  State is (chunks so far, currentChunk). -/
def procWords (maxSize : Nat) (st : List (List Char) × List Char)
    (paragraph : List Char) : List (List Char) × List Char :=
  (splitSp paragraph []).foldl
    (fun st word =>
      let st' := if st.2.length + word.length + 1 > maxSize then
          (if st.2.length > 0 then (st.1 ++ [trimJS st.2], ([] : List Char)) else st)
        else st
      (st'.1, st'.2 ++ (if st'.2.isEmpty then [] else [' ']) ++ word))
    st

/-- Paragraph loop of `smartChunkText` over `heading.split("\n\n")`. -/
def procParagraphs (maxSize : Nat) (st : List (List Char) × List Char)
    (heading : List Char) : List (List Char) × List Char :=
  (splitNN heading []).foldl
    (fun st paragraph =>
      if st.2.length + paragraph.length + 2 > maxSize then
        let st' := if st.2.length > 0 then (st.1 ++ [trimJS st.2], ([] : List Char)) else st
        if paragraph.length > maxSize then procWords maxSize st' paragraph
        else (st'.1, paragraph)
      else (st.1, st.2 ++ (if st.2.isEmpty then [] else ['\n', '\n']) ++ paragraph))
    st

/-- Heading loop of `smartChunkText` over the `/(?=\n\s*\d{2}\.\d{2})/` split. -/
def procHeadings (maxSize : Nat) (st : List (List Char) × List Char)
    (chapter : List Char) : List (List Char) × List Char :=
  (splitLA matchHeadingAt chapter []).foldl
    (fun st heading =>
      if trimJS heading = [] then st
      else if st.2.length + heading.length + 2 > maxSize then
        let st' := if st.2.length > 0 then (st.1 ++ [trimJS st.2], ([] : List Char)) else st
        if heading.length > maxSize then procParagraphs maxSize st' heading
        else (st'.1, heading)
      else (st.1, st.2 ++ (if st.2.isEmpty then [] else ['\n']) ++ heading))
    st

/-- Chapter loop of `smartChunkText` over the `/(?=\n\s*Chapter\s+\d+)/i` split. -/
def procChapters (maxSize : Nat) (st : List (List Char) × List Char)
    (sect : List Char) : List (List Char) × List Char :=
  (splitLA matchChapterAt sect []).foldl
    (fun st chapter =>
      if trimJS chapter = [] then st
      else if st.2.length + chapter.length + 2 > maxSize then
        let st' := if st.2.length > 0 then (st.1 ++ [trimJS st.2], ([] : List Char)) else st
        if chapter.length > maxSize then procHeadings maxSize st' chapter
        else (st'.1, chapter)
      else (st.1, st.2 ++ (if st.2.isEmpty then [] else ['\n']) ++ chapter))
    st

/-- Section loop of `smartChunkText` over the
`/(?=\n\s*(?:Section|SECTION)\s+[IVXLCDM]+)/i` split. -/
def procSections (maxSize : Nat) (st : List (List Char) × List Char)
    (text : List Char) : List (List Char) × List Char :=
  (splitLA matchSectionAt text []).foldl
    (fun st sect =>
      if trimJS sect = [] then st
      else if st.2.length + sect.length + 2 > maxSize then
        let st' := if st.2.length > 0 then (st.1 ++ [trimJS st.2], ([] : List Char)) else st
        if sect.length > maxSize then procChapters maxSize st' sect
        else (st'.1, sect)
      else (st.1, st.2 ++ (if st.2.isEmpty then [] else ['\n']) ++ sect))
    st

/-- `PDFProcessor.smartChunkText` (pdfProcessor.js 689–798): structural
chunker with a final flush of the current chunk and the
`chunk.trim().length > 100` noise filter. -/
def smartChunkText (text : List Char) (maxSize : Nat) : List (List Char) :=
  let st := procSections maxSize ([], []) text
  let chunks := if (trimJS st.2).length > 0 then st.1 ++ [trimJS st.2] else st.1
  chunks.filter (fun c => (trimJS c).length > 100)

/-- `s` occurs as a contiguous segment of `l`. -/
def Seg (s l : List Char) : Prop := ∃ a b, a ++ (s ++ b) = l

theorem seg_refl (l : List Char) : Seg l l := ⟨[], [], by simp⟩

theorem seg_prepend (x : List Char) {w l : List Char} (h : Seg w l) : Seg w (x ++ l) := by
  obtain ⟨a, b, rfl⟩ := h
  exact ⟨x ++ a, b, by rw [List.append_assoc]⟩

theorem seg_append (y : List Char) {w l : List Char} (h : Seg w l) : Seg w (l ++ y) := by
  obtain ⟨a, b, rfl⟩ := h
  exact ⟨a, b ++ y, by simp⟩

theorem seg_trans {s w l : List Char} (h1 : Seg s w) (h2 : Seg w l) : Seg s l := by
  obtain ⟨a, b, rfl⟩ := h1
  obtain ⟨a', b', rfl⟩ := h2
  exact ⟨a' ++ a, b ++ b', by simp⟩

/-- Every piece of the space split is space-free and a segment of the input. -/
theorem splitSp_pieces (l : List Char) :
    ∀ acc, (∀ c ∈ acc, ¬(c = ' ')) →
      ∀ w ∈ splitSp l acc, (∀ c ∈ w, ¬(c = ' ')) ∧ Seg w (acc.reverse ++ l) := by
  induction l with
  | nil =>
    intro acc hacc w hw
    rw [show splitSp [] acc = [acc.reverse] from rfl, List.mem_singleton] at hw
    subst hw
    exact ⟨fun c hc => hacc c (List.mem_reverse.mp hc), ⟨[], [], by simp⟩⟩
  | cons c cs ih =>
    intro acc hacc w hw
    rw [show splitSp (c :: cs) acc
        = if c = ' ' then acc.reverse :: splitSp cs [] else splitSp cs (c :: acc) from rfl] at hw
    by_cases hc : c = ' '
    · rw [if_pos hc] at hw
      rcases List.mem_cons.mp hw with rfl | hw'
      · exact ⟨fun x hx => hacc x (List.mem_reverse.mp hx), ⟨[], c :: cs, by simp⟩⟩
      · obtain ⟨hwf, hseg⟩ := ih [] (by simp) w hw'
        refine ⟨hwf, ?_⟩
        simp only [List.reverse_nil, List.nil_append] at hseg
        have h := seg_prepend (acc.reverse ++ [c]) hseg
        rw [show (acc.reverse ++ [c]) ++ cs = acc.reverse ++ (c :: cs) from by simp] at h
        exact h
    · rw [if_neg hc] at hw
      obtain ⟨hwf, hseg⟩ := ih (c :: acc)
        (fun x hx => by
          rcases List.mem_cons.mp hx with rfl | hx'
          · exact hc
          · exact hacc x hx') w hw
      refine ⟨hwf, ?_⟩
      rw [show (c :: acc).reverse ++ cs = acc.reverse ++ (c :: cs) from by simp] at hseg
      exact hseg

/-- Every piece of a lookahead split is a segment of the input. -/
theorem splitLA_pieces (m : List Char → Bool) (l : List Char) :
    ∀ acc, ∀ w ∈ splitLA m l acc, Seg w (acc.reverse ++ l) := by
  induction l with
  | nil =>
    intro acc w hw
    rw [show splitLA m [] acc = [acc.reverse] from rfl, List.mem_singleton] at hw
    subst hw
    exact ⟨[], [], by simp⟩
  | cons c cs ih =>
    intro acc w hw
    rw [show splitLA m (c :: cs) acc
        = if m (c :: cs) && !acc.isEmpty then acc.reverse :: splitLA m cs [c]
          else splitLA m cs (c :: acc) from rfl] at hw
    by_cases hc : (m (c :: cs) && !acc.isEmpty) = true
    · rw [if_pos hc] at hw
      rcases List.mem_cons.mp hw with rfl | hw'
      · exact ⟨[], c :: cs, by simp⟩
      · have h := ih [c] w hw'
        rw [show ([c] : List Char).reverse ++ cs = [c] ++ cs from by simp] at h
        have h2 := seg_prepend acc.reverse h
        rw [show acc.reverse ++ ([c] ++ cs) = acc.reverse ++ (c :: cs) from by simp] at h2
        exact h2
    · rw [if_neg hc] at hw
      have h := ih (c :: acc) w hw
      rw [show (c :: acc).reverse ++ cs = acc.reverse ++ (c :: cs) from by simp] at h
      exact h

/-- Every piece of the `"\n\n"` split is a segment of the input. -/
theorem splitNN_pieces :
    ∀ (n : Nat) (l : List Char), l.length ≤ n →
      ∀ acc, ∀ w ∈ splitNN l acc, Seg w (acc.reverse ++ l) := by
  intro n
  induction n with
  | zero =>
    intro l hl acc w hw
    rw [List.length_eq_zero.mp (Nat.le_zero.mp hl)] at hw ⊢
    rw [show splitNN [] acc = [acc.reverse] from rfl, List.mem_singleton] at hw
    subst hw
    exact ⟨[], [], by simp⟩
  | succ n ih =>
    intro l hl acc w hw
    match l with
    | [] =>
      rw [show splitNN [] acc = [acc.reverse] from rfl, List.mem_singleton] at hw
      subst hw
      exact ⟨[], [], by simp⟩
    | [c] =>
      rw [show splitNN [c] acc = [(c :: acc).reverse] from rfl, List.mem_singleton] at hw
      subst hw
      exact ⟨[], [], by simp⟩
    | c :: c' :: cs =>
      rw [show splitNN (c :: c' :: cs) acc
          = if c = '\n' ∧ c' = '\n' then acc.reverse :: splitNN cs []
            else splitNN (c' :: cs) (c :: acc) from rfl] at hw
      simp only [List.length_cons] at hl
      by_cases hc : c = '\n' ∧ c' = '\n'
      · rw [if_pos hc] at hw
        rcases List.mem_cons.mp hw with rfl | hw'
        · exact ⟨[], c :: c' :: cs, by simp⟩
        · have h := ih cs (by omega) [] w hw'
          simp only [List.reverse_nil, List.nil_append] at h
          have h2 := seg_prepend (acc.reverse ++ [c, c']) h
          rw [show (acc.reverse ++ [c, c']) ++ cs = acc.reverse ++ (c :: c' :: cs) from by
            simp] at h2
          exact h2
      · rw [if_neg hc] at hw
        have h := ih (c' :: cs) (by simp; omega) (c :: acc) w hw
        rw [show (c :: acc).reverse ++ (c' :: cs) = acc.reverse ++ (c :: c' :: cs) from by
          simp] at h
        exact h

/-- The chunker state invariant: all emitted chunks and the current chunk are
within the size bound. -/
def stBound (maxSize : Nat) (st : List (List Char) × List Char) : Prop :=
  (∀ c ∈ st.1, c.length ≤ maxSize) ∧ st.2.length ≤ maxSize

theorem foldl_preserve {α β : Type} (P : α → Prop) (f : α → β → α) (l : List β)
    (hf : ∀ a b, b ∈ l → P a → P (f a b)) : ∀ a, P a → P (l.foldl f a) := by
  induction l with
  | nil => intro a h; exact h
  | cons x xs ih =>
    intro a h
    exact ih (fun a b hb => hf a b (List.mem_cons_of_mem _ hb)) (f a x)
      (hf a x (List.mem_cons_self _ _) h)

/-- Pushing the trimmed current chunk preserves the invariant. -/
theorem stBound_push (maxSize : Nat) (st : List (List Char) × List Char)
    (hst : stBound maxSize st) :
    stBound maxSize
      (if st.2.length > 0 then (st.1 ++ [trimJS st.2], ([] : List Char)) else st) := by
  by_cases h : st.2.length > 0
  · rw [if_pos h]
    refine ⟨?_, by simp⟩
    intro c hc
    rcases List.mem_append.mp hc with hc | hc
    · exact hst.1 c hc
    · rw [List.mem_singleton.mp hc]
      exact le_trans (trimJS_length_le _) hst.2
  · rw [if_neg h]
    exact hst

/-- Word-level force split keeps everything within `maxSize`, provided every
space-free segment of the paragraph fits. -/
theorem procWords_bound (maxSize : Nat) (paragraph : List Char)
    (hws : ∀ s, Seg s paragraph → (∀ c ∈ s, ¬(c = ' ')) → s.length ≤ maxSize)
    (st : List (List Char) × List Char) (hst : stBound maxSize st) :
    stBound maxSize (procWords maxSize st paragraph) := by
  unfold procWords
  refine foldl_preserve (stBound maxSize) _ _ ?_ st hst
  intro a w hw ha
  obtain ⟨hwf, hwseg⟩ := splitSp_pieces paragraph [] (by simp) w hw
  simp only [List.reverse_nil, List.nil_append] at hwseg
  have hwlen : w.length ≤ maxSize := hws w hwseg hwf
  dsimp only []
  by_cases h1 : a.2.length + w.length + 1 > maxSize
  · rw [if_pos h1]
    have hpush := stBound_push maxSize a ha
    set b := if a.2.length > 0 then (a.1 ++ [trimJS a.2], ([] : List Char)) else a with hb
    have hb2 : b.2 = [] := by
      rw [hb]
      by_cases h2 : a.2.length > 0
      · rw [if_pos h2]
      · rw [if_neg h2]
        exact List.length_eq_zero.mp (by omega)
    refine ⟨hpush.1, ?_⟩
    rw [hb2]
    simpa using hwlen
  · rw [if_neg h1]
    refine ⟨ha.1, ?_⟩
    by_cases he : a.2.isEmpty
    · rw [if_pos he]
      simp only [List.length_append, List.length_nil]
      omega
    · rw [if_neg he]
      simp only [List.length_append, List.length_cons, List.length_nil]
      omega

/-- Paragraph level of the chunker preserves the size invariant. -/
theorem procParagraphs_bound (maxSize : Nat) (heading : List Char)
    (hws : ∀ s, Seg s heading → (∀ c ∈ s, ¬(c = ' ')) → s.length ≤ maxSize)
    (st : List (List Char) × List Char) (hst : stBound maxSize st) :
    stBound maxSize (procParagraphs maxSize st heading) := by
  unfold procParagraphs
  refine foldl_preserve (stBound maxSize) _ _ ?_ st hst
  intro a p hp ha
  have hpseg : Seg p heading := by
    simpa using splitNN_pieces heading.length heading le_rfl [] p hp
  dsimp only []
  by_cases h1 : a.2.length + p.length + 2 > maxSize
  · rw [if_pos h1]
    have hpush := stBound_push maxSize a ha
    by_cases h2 : p.length > maxSize
    · rw [if_pos h2]
      exact procWords_bound maxSize p (fun s hs hsf => hws s (seg_trans hs hpseg) hsf) _ hpush
    · rw [if_neg h2]
      exact ⟨hpush.1, by dsimp only []; omega⟩
  · rw [if_neg h1]
    refine ⟨ha.1, ?_⟩
    by_cases he : a.2.isEmpty
    · rw [if_pos he]
      simp only [List.length_append, List.length_nil]
      omega
    · rw [if_neg he]
      simp only [List.length_append, List.length_cons, List.length_nil]
      omega

/-- Heading level of the chunker preserves the size invariant. -/
theorem procHeadings_bound (maxSize : Nat) (chapter : List Char)
    (hws : ∀ s, Seg s chapter → (∀ c ∈ s, ¬(c = ' ')) → s.length ≤ maxSize)
    (st : List (List Char) × List Char) (hst : stBound maxSize st) :
    stBound maxSize (procHeadings maxSize st chapter) := by
  unfold procHeadings
  refine foldl_preserve (stBound maxSize) _ _ ?_ st hst
  intro a h hh ha
  have hseg : Seg h chapter := by
    simpa using splitLA_pieces matchHeadingAt chapter [] h hh
  dsimp only []
  by_cases h0 : trimJS h = []
  · rw [if_pos h0]
    exact ha
  · rw [if_neg h0]
    by_cases h1 : a.2.length + h.length + 2 > maxSize
    · rw [if_pos h1]
      have hpush := stBound_push maxSize a ha
      by_cases h2 : h.length > maxSize
      · rw [if_pos h2]
        exact procParagraphs_bound maxSize h
          (fun s hs hsf => hws s (seg_trans hs hseg) hsf) _ hpush
      · rw [if_neg h2]
        exact ⟨hpush.1, by dsimp only []; omega⟩
    · rw [if_neg h1]
      refine ⟨ha.1, ?_⟩
      by_cases he : a.2.isEmpty
      · rw [if_pos he]
        simp only [List.length_append, List.length_nil]
        omega
      · rw [if_neg he]
        simp only [List.length_append, List.length_cons, List.length_nil]
        omega

/-- Chapter level of the chunker preserves the size invariant. -/
theorem procChapters_bound (maxSize : Nat) (sect : List Char)
    (hws : ∀ s, Seg s sect → (∀ c ∈ s, ¬(c = ' ')) → s.length ≤ maxSize)
    (st : List (List Char) × List Char) (hst : stBound maxSize st) :
    stBound maxSize (procChapters maxSize st sect) := by
  unfold procChapters
  refine foldl_preserve (stBound maxSize) _ _ ?_ st hst
  intro a h hh ha
  have hseg : Seg h sect := by
    simpa using splitLA_pieces matchChapterAt sect [] h hh
  dsimp only []
  by_cases h0 : trimJS h = []
  · rw [if_pos h0]
    exact ha
  · rw [if_neg h0]
    by_cases h1 : a.2.length + h.length + 2 > maxSize
    · rw [if_pos h1]
      have hpush := stBound_push maxSize a ha
      by_cases h2 : h.length > maxSize
      · rw [if_pos h2]
        exact procHeadings_bound maxSize h
          (fun s hs hsf => hws s (seg_trans hs hseg) hsf) _ hpush
      · rw [if_neg h2]
        exact ⟨hpush.1, by dsimp only []; omega⟩
    · rw [if_neg h1]
      refine ⟨ha.1, ?_⟩
      by_cases he : a.2.isEmpty
      · rw [if_pos he]
        simp only [List.length_append, List.length_nil]
        omega
      · rw [if_neg he]
        simp only [List.length_append, List.length_cons, List.length_nil]
        omega

/-- Section level of the chunker preserves the size invariant. -/
theorem procSections_bound (maxSize : Nat) (text : List Char)
    (hws : ∀ s, Seg s text → (∀ c ∈ s, ¬(c = ' ')) → s.length ≤ maxSize)
    (st : List (List Char) × List Char) (hst : stBound maxSize st) :
    stBound maxSize (procSections maxSize st text) := by
  unfold procSections
  refine foldl_preserve (stBound maxSize) _ _ ?_ st hst
  intro a h hh ha
  have hseg : Seg h text := by
    simpa using splitLA_pieces matchSectionAt text [] h hh
  dsimp only []
  by_cases h0 : trimJS h = []
  · rw [if_pos h0]
    exact ha
  · rw [if_neg h0]
    by_cases h1 : a.2.length + h.length + 2 > maxSize
    · rw [if_pos h1]
      have hpush := stBound_push maxSize a ha
      by_cases h2 : h.length > maxSize
      · rw [if_pos h2]
        exact procChapters_bound maxSize h
          (fun s hs hsf => hws s (seg_trans hs hseg) hsf) _ hpush
      · rw [if_neg h2]
        exact ⟨hpush.1, by dsimp only []; omega⟩
    · rw [if_neg h1]
      refine ⟨ha.1, ?_⟩
      by_cases he : a.2.isEmpty
      · rw [if_pos he]
        simp only [List.length_append, List.length_nil]
        omega
      · rw [if_neg he]
        simp only [List.length_append, List.length_cons, List.length_nil]
        omega

/-- C8 (amended): for every input text and size, every chunk `smartChunkText`
outputs is unconditionally longer than 100 characters (shorter chunks are
discarded by the noise filter); and if additionally every space-free
contiguous segment of the input fits in `maxSize`, every output chunk has
length at most `maxSize`.  Without the space-free segment precondition the
size bound fails: see the counterexample. -/
theorem smartChunkText_bounds (text : List Char) (maxSize : Nat) :
    (∀ c ∈ smartChunkText text maxSize, 100 < c.length) ∧
      ((∀ s, Seg s text → (∀ c ∈ s, ¬(c = ' ')) → s.length ≤ maxSize) →
        ∀ c ∈ smartChunkText text maxSize, c.length ≤ maxSize) := by
  constructor
  · intro c hc
    unfold smartChunkText at hc
    dsimp only [] at hc
    rw [List.mem_filter] at hc
    have hlen' : 100 < (trimJS c).length := by simpa using hc.2
    exact lt_of_lt_of_le hlen' (trimJS_length_le c)
  · intro hws c hc
    unfold smartChunkText at hc
    dsimp only [] at hc
    rw [List.mem_filter] at hc
    obtain ⟨hmem, -⟩ := hc
    have hbound := procSections_bound maxSize text hws ([], []) ⟨by simp, by simp⟩
    split at hmem
    · rcases List.mem_append.mp hmem with hm | hm
      · exact hbound.1 c hm
      · rw [List.mem_singleton.mp hm]
        exact le_trans (trimJS_length_le _) hbound.2
    · exact hbound.1 c hmem

/-- A concrete well-behaved input for the chunker. -/
def chunkWitText : List Char :=
  str2l ("The quick brown fox jumps over the lazy dog near the riverbank " ++
    "while twelve zebras watch quietly from afar today.")

set_option maxRecDepth 8192 in
theorem smartChunkText_bounds_witness :
    100 < chunkWitText.length ∧ chunkWitText.length ≤ 30000 :=
  ⟨(smartChunkText_bounds chunkWitText 30000).1 chunkWitText (by decide),
    (smartChunkText_bounds chunkWitText 30000).2
      (fun s hs _ => by
        obtain ⟨a, b, hab⟩ := hs
        have hle : s.length ≤ chunkWitText.length := by
          rw [← hab]
          simp only [List.length_append]
          omega
        exact le_trans hle (by decide))
      chunkWitText (by decide)⟩

/-- C8 counterexample: a 111-character space-free word is emitted whole, so
with `maxSize = 50` the single output chunk has length 111 > 50. -/
theorem smartChunkText_cx :
    (smartChunkText (List.replicate 111 'a') 50).map List.length = [111] ∧
      ¬(111 ≤ 50) := by
  constructor
  · rfl
  · decide
